import Mathlib

/-!
Shallow embedding of the reference-dictionary (refdict) machinery of
`edb/lang/schema/referencing.py`: referencing objects with local and full
child collections, the classref mutation API (`add_classref`,
`del_classref`, rename/create innards), the inheritance merge engine
(`merge_classref_dict` / `finalize`), and the delta/diff engine
(`ReferencingObject.delta`).

Names are natural numbers.  A `Child` models a referenced schema object:
its `shortname` is the collection key, `backref` is the id of the owner
stored in the refdict's `backref_attr` field, `declared_inherited` is the
explicit "inherited" tag, `content` models the mergeable payload of the
child (merged by set union, standing for the child kind's merge rule,
e.g. union of constraint sets), and `sourcectx` is the source-location
metadata used in diagnostics.

Collections model `so.ObjectMapping`: an ordered name-to-child mapping
whose `replace` operation updates existing keys in place, appends new
keys, and removes keys mapped to a tombstone.  We expose it as an
association list with `getRef`/`hasRef`/`setRef`/`delRef`.

A single RefDict is modelled per object (refdicts are processed
independently by every operation in the source, so each theorem about
"the" collection holds for each refdict's collection separately).
-/

namespace EdbRef

/-- A referenced child object (pointer, constraint, index...). -/
structure Child where
  shortname : Nat
  backref : Nat
  declared_inherited : Bool
  content : Finset Nat
  sourcectx : Nat
deriving DecidableEq

/-- A refdict collection: ordered name-to-child association list
(`so.ObjectMapping`). -/
abbrev Coll := List (Nat × Child)

/-- Lookup by name (`ObjectMapping.get`). -/
def getRef : Coll → Nat → Option Child
  | [], _ => none
  | p :: t, n => if p.1 = n then some p.2 else getRef t n

/-- Key-membership test (`ObjectMapping.has`). -/
def hasRef (c : Coll) (n : Nat) : Bool :=
  (getRef c n).isSome

/-- `replace` with a single non-tombstone update: update the first entry
with this key in place, append the entry when the key is absent. -/
def setRef : Coll → Nat → Child → Coll
  | [], n, v => [(n, v)]
  | p :: t, n, v => if p.1 = n then (n, v) :: t else p :: setRef t n v

/-- `replace` with a tombstone: remove the key. -/
def delRef : Coll → Nat → Coll
  | [], _ => []
  | p :: t, n => if p.1 = n then delRef t n else p :: delRef t n

/-- `ObjectMapping.names`. -/
def refNames : Coll → List Nat
  | [] => []
  | p :: t => p.1 :: refNames t

/-- A referencing schema object: identity, declared bases (ids), the
cached MRO-style proper-ancestor linearization (ids), and the local and
full collections of one refdict. -/
structure SObj where
  oid : Nat
  bases : List Nat
  ancestors : List Nat
  locals : Coll
  fulls : Coll
deriving DecidableEq

/-- The catalog: the list of referencing objects.  `descendants(schema)`
is the reverse index over the cached ancestor lists; `children(schema)`
the reverse index over `bases`. -/
abbrev DB := List SObj

/-- Object lookup by id. -/
def findObj (db : DB) (i : Nat) : Option SObj :=
  db.find? (fun o => o.oid == i)

/-- Errors raised by the classref mutation API. -/
inductive SchemaErr where
  /-- `SchemaError` for a duplicate reference, carrying the child's
  source location (`context=obj.sourcectx`). -/
  | duplicateRef (ctx : Nat)
deriving DecidableEq

/-- Per-object effect of `add_classref`: insert the child into the
owner's local and full collections under its shortname. -/
def addStep (ownerId : Nat) (obj : Child) (d : SObj) : SObj :=
  if d.oid = ownerId then
    { d with locals := setRef d.locals obj.shortname obj,
             fulls := setRef d.fulls obj.shortname obj }
  else d

/-- `ReferencingObject.add_classref`: key is the child's shortname; a key
already present in the local collection without `replace` raises a
duplicate-reference error; otherwise the child is inserted into both the
local and the full collection. -/
def addClassref (db : DB) (ownerId : Nat) (obj : Child) (replace : Bool) :
    Except SchemaErr DB :=
  match findObj db ownerId with
  | none => .ok db
  | some owner =>
    if hasRef owner.locals obj.shortname = true ∧ replace = false then
      .error (.duplicateRef obj.sourcectx)
    else
      .ok (db.map (addStep ownerId obj))

/-- Per-object effect of the `_create_innards` cascade: every descendant
of the referrer that does not declare the child's shortname locally gets
the same reference in its full collection. -/
def cascadeStep (ownerId : Nat) (obj : Child) (d : SObj) : SObj :=
  if ownerId ∈ d.ancestors ∧ hasRef d.locals obj.shortname = false then
    { d with fulls := setRef d.fulls obj.shortname obj }
  else d

/-- `ReferencedObjectCommand._create_innards` (refdict part): set the
child's backref to the referrer, `add_classref` it on the referrer, and
insert the same reference into the full collection of every descendant
that does not declare the name locally. -/
def createInnards (db : DB) (ownerId : Nat) (scls : Child) :
    Except SchemaErr DB :=
  match addClassref db ownerId { scls with backref := ownerId } false with
  | .error e => .error e
  | .ok db1 => .ok (db1.map (cascadeStep ownerId { scls with backref := ownerId }))

/-- Does the base object with id `bid` have `k` in its full collection? -/
def baseHas (db : DB) (bid : Nat) (k : Nat) : Bool :=
  match findObj db bid with
  | some b => hasRef b.fulls k
  | none => false

/-- Per-object effect of `del_classref(owner, key)` with inheritance
status `inh`: when not inherited, the key is removed from the owner's
full collection and from the full collection of every descendant that
does not declare it locally; the owner's local entry is always removed
when present. -/
def delStep (ownerId k : Nat) (inh : Bool) (d : SObj) : SObj :=
  let d1 :=
    if inh = false ∧ d.oid = ownerId then
      { d with fulls := delRef d.fulls k }
    else if inh = false ∧ ownerId ∈ d.ancestors ∧ hasRef d.locals k = false then
      { d with fulls := delRef d.fulls k }
    else d
  if d1.oid = ownerId ∧ hasRef d1.locals k = true then
    { d1 with locals := delRef d1.locals k }
  else d1

/-- `ReferencingObject.del_classref`: the key is inherited when some
base's full collection contains it (the name is already the shortname in
this model, matching `refcls.get_shortname(obj_name)`). -/
def delClassref (db : DB) (ownerId : Nat) (objName : Nat) : DB :=
  match findObj db ownerId with
  | none => db
  | some owner =>
    let inh := owner.bases.any (fun b => baseHas db b objName)
    db.map (delStep ownerId objName inh)

/-- `replace(schema, {old_name: None, new_name: ref})`: rebind the entry
under the old key to the new key. -/
def renameKey (c : Coll) (oldN newN : Nat) : Coll :=
  match getRef c oldN with
  | some ref => setRef (delRef c oldN) newN ref
  | none => c

/-- Per-object effect of `_rename_innards`: the referrer's full and local
collections are rekeyed when they contain the old name; each *direct*
child (`referrer.children(schema)`) whose full collection contains the
old name has its full collection rekeyed. -/
def renameStep (ownerId oldN newN : Nat) (d : SObj) : SObj :=
  if d.oid = ownerId then
    { d with fulls := renameKey d.fulls oldN newN,
             locals := renameKey d.locals oldN newN }
  else if ownerId ∈ d.bases ∧ hasRef d.fulls oldN = true then
    { d with fulls := renameKey d.fulls oldN newN }
  else d

/-- `ReferencedObjectCommand._rename_innards` (refdict part): when the
old and new shortnames coincide the schema is returned unchanged;
otherwise the referrer and its direct children are rekeyed. -/
def renameInnards (db : DB) (ownerId : Nat) (oldN newN : Nat) : DB :=
  if oldN = newN then db
  else
    match findObj db ownerId with
    | none => db
    | some _ => db.map (renameStep ownerId oldN newN)

/-- Union of the payloads of a list of children, modelling the merge of
all inherited entries. -/
def unionContents (cs : List Child) : Finset Nat :=
  cs.foldr (fun c acc => c.content ∪ acc) ∅

/-- Modelled from the spec: `derive_copy` (defined in the inheriting /
objects modules, absent from the sources) produces a merged derived copy
of the local child, combining it with all inherited entries through the
child kind's merge rule (payload union), owned by the deriving object.
The result is a fresh object, never identical to the local child. -/
def derive_copy (selfId : Nat) (l : Child) (merge_bases : List Child) : Child :=
  { shortname := l.shortname
    backref := selfId
    declared_inherited := l.declared_inherited
    content := l.content ∪ unionContents merge_bases
    sourcectx := l.sourcectx }

/-- Modelled from the spec: `derive` (absent from the sources) produces a
derived copy from the common base kind merging all inherited entries; the
identifying fields are taken from the first inherited entry, the
"inherited" tag is not set, and the result is a fresh object. -/
def derive (selfId : Nat) (first : Child) (merge_bases : List Child) : Child :=
  { shortname := first.shortname
    backref := selfId
    declared_inherited := false
    content := unionContents merge_bases
    sourcectx := first.sourcectx }

/-- One step of the dict comprehension
`{getattr(pref, backref_attr): pref for pref in inherited}`: the first
occurrence of a backref key fixes its position, the last assignment fixes
its value. -/
def upsertByBackref (acc : List Child) (c : Child) : List Child :=
  if acc.any (fun a => a.backref == c.backref) then
    acc.map (fun a => if a.backref = c.backref then c else a)
  else acc ++ [c]

/-- The deduplication of inherited candidates by origin owner
(`ancestry` in `merge_classref_dict`), returning `ancestry.values()`. -/
def dedupByBackref (cs : List Child) : List Child :=
  cs.foldl upsertByBackref []

/-- Errors raised by the merge engine. -/
inductive MergeErr where
  /-- `SchemaDefinitionError`: a local reference must be declared with
  the `inherited` keyword; carries the owner, the origin owners of the
  deduplicated inherited candidates (the ancestors named in the
  message), and the local child's source location. -/
  | mustInherit (ownerId : Nat) (ancestors : List Nat) (ctx : Nat)
  /-- `SchemaDefinitionError`: a local reference declared `inherited`
  with no ancestor defining it. -/
  | spuriousInherit (ownerId : Nat) (ctx : Nat)
  /-- The crash on a key present in the full collection with neither a
  local nor an inherited definition (`local.declared_inherited` on
  `None`). -/
  | missingRef (key : Nat)
deriving DecidableEq

/-- The per-key body of `ReferencingObject.merge_classref_dict`,
threading the (local, full) collection pair.  `dctx` is the delta
context, modelled by its `declarative` flag. -/
def mergeKey (selfId : Nat) (bases : List SObj) (reqExpInh : Bool)
    (dctx : Option Bool) (st : Coll × Coll) (k : Nat) :
    Except MergeErr (Coll × Coll) :=
  let locals := st.1
  let fulls := st.2
  let lref := getRef locals k
  let inh0 := bases.filterMap (fun b => getRef b.fulls k)
  let inherited := dedupByBackref inh0
  let ancs := inherited.map (·.backref)
  match lref, inherited with
  | some l, c :: rest =>
      let merged := derive_copy selfId l (c :: rest)
      if reqExpInh = true ∧ l.declared_inherited = false ∧ dctx = some true then
        .error (.mustInherit selfId ancs l.sourcectx)
      else
        .ok (setRef locals k merged, setRef fulls k merged)
  | none, c1 :: c2 :: rest =>
      let merged := derive selfId c1 (c1 :: c2 :: rest)
      .ok (setRef locals k merged, setRef fulls k merged)
  | none, [c] =>
      .ok (locals, setRef fulls k c)
  | some l, [] =>
      if l.declared_inherited = true then
        .error (.spuriousInherit selfId l.sourcectx)
      else .ok (locals, fulls)
  | none, [] => .error (.missingRef k)

/-- The `for classref_key in classref_keys` loop of
`merge_classref_dict`, threading the (local, full) collection pair and
propagating the first definition error. -/
def mergeFold (selfId : Nat) (bases : List SObj) (reqExpInh : Bool)
    (dctx : Option Bool) : Coll × Coll → List Nat →
    Except MergeErr (Coll × Coll)
  | st, [] => .ok st
  | st, k :: ks =>
    match mergeKey selfId bases reqExpInh dctx st k with
    | .error e => .error e
    | .ok st1 => mergeFold selfId bases reqExpInh dctx st1 ks

/-- `ReferencingObject.merge_classref_dict` over a list of keys. -/
def mergeClassrefDict (self : SObj) (bases : List SObj) (reqExpInh : Bool)
    (dctx : Option Bool) (keys : List Nat) : Except MergeErr SObj :=
  match mergeFold self.oid bases reqExpInh dctx (self.locals, self.fulls) keys with
  | .error e => .error e
  | .ok st => .ok { self with locals := st.1, fulls := st.2 }

/-- `ReferencingObject.finalize` for one refdict:
`begin_classref_dict_merge` returns no key restriction, so the keys are
the names already present in the full collection. -/
def finalizeObj (self : SObj) (bases : List SObj) (reqExpInh : Bool)
    (dctx : Option Bool) : Except MergeErr SObj :=
  mergeClassrefDict self bases reqExpInh dctx (refNames self.fulls)

/-- A versioned object as seen by the delta engine: its own fields plus
the refdict collections. -/
structure TObj where
  tname : Nat
  ofields : List (Nat × Nat)
  locals : Coll
  fulls : Coll
deriving DecidableEq

/-- Subcommands produced for one refdict's children diff. -/
inductive ChildCmd where
  /-- `Create` for a name only in the new local collection, with full
  field contents. -/
  | createRef (n : Nat) (c : Child)
  /-- A non-empty recursive delta for a name in both collections; the
  recorded field changes turn the old child into `c`. -/
  | alterRef (n : Nat) (c : Child)
  /-- `Delete` for a name only in the old local collection. -/
  | deleteRef (n : Nat)
deriving DecidableEq

/-- The child name a subcommand targets. -/
def cmdName : ChildCmd → Nat
  | .createRef n _ => n
  | .alterRef n _ => n
  | .deleteRef n => n

/-- Commands produced by `ReferencingObject.delta`. -/
inductive ObjCmd where
  | createObj (n : Nat) (fields : List (Nat × Nat)) (subs : List ChildCmd)
  | alterObj (n : Nat) (fields : List (Nat × Nat)) (subs : List ChildCmd)
  /-- `sd.CommandGroup` holding the create shell and the sibling alter. -/
  | cmdGroup (c1 c2 : ObjCmd)
deriving DecidableEq

/-- Own-object field changes: the new bindings that differ from the old
ones. -/
def fieldDiff (oldf newf : List (Nat × Nat)) : List (Nat × Nat) :=
  newf.filter (fun p => !(oldf.lookup p.1 == some p.2))

/-- The child delta for one entry of the new local collection: an
`Alter` recording the field changes when the old collection has the name
with a different child, nothing otherwise. -/
def alterCmd? (oldc : Coll) (p : Nat × Child) : Option ChildCmd :=
  match getRef oldc p.1 with
  | some oc => if oc = p.2 then none else some (.alterRef p.1 p.2)
  | none => none

/-- Modelled from the spec: `delta_sets` (absent from the sources) —
for each name in both local collections a recursive child delta when the
children differ. -/
def altersOf (oldc newc : Coll) : List ChildCmd :=
  newc.filterMap (alterCmd? oldc)

/-- The creation subcommand for one entry of the new local collection:
emitted (with full field contents) when the old collection lacks the
name. -/
def createCmd? (oldc : Coll) (p : Nat × Child) : Option ChildCmd :=
  if hasRef oldc p.1 = true then none else some (.createRef p.1 p.2)

/-- Modelled from the spec: `delta_sets` — a `Create` subcommand for each
name only in the new local collection. -/
def createsOf (oldc newc : Coll) : List ChildCmd :=
  newc.filterMap (createCmd? oldc)

/-- The deletion subcommand for one entry of the old local collection:
emitted when the new collection lacks the name. -/
def deleteCmd? (newc : Coll) (p : Nat × Child) : Option ChildCmd :=
  if hasRef newc p.1 = true then none else some (.deleteRef p.1)

/-- Modelled from the spec: `delta_sets` — a `Delete` subcommand for each
name only in the old local collection. -/
def deletesOf (oldc newc : Coll) : List ChildCmd :=
  oldc.filterMap (deleteCmd? newc)

/-- Modelled from the spec: the full `delta_sets` children diff of one
refdict's local collections. -/
def deltaSets (oldc newc : Coll) : List ChildCmd :=
  altersOf oldc newc ++ createsOf oldc newc ++ deletesOf oldc newc

/-- `ReferencingObject.delta`: with no old version, the bare `Create`
(own fields only, produced by the named-object delta, modelled from the
spec) is grouped with a separate sibling `Alter` holding the children
diff, the group collapsing to the bare `Create` when the alter has no
subcommands; with both versions present, the children diff is appended
to the `Alter` produced by the named-object delta. -/
def refDelta (old : Option TObj) (new : TObj) : ObjCmd :=
  match old with
  | none =>
    let subs := deltaSets [] new.locals
    if subs = [] then .createObj new.tname new.ofields []
    else
      .cmdGroup (.createObj new.tname new.ofields [])
        (.alterObj new.tname [] subs)
  | some o =>
    .alterObj new.tname (fieldDiff o.ofields new.ofields)
      (deltaSets o.locals new.locals)

/-- Modelled from the spec: applying one children-diff subcommand to a
collection — `Create` inserts (`add_classref`), `Alter` rewrites the
child's fields, `Delete` removes (`del_classref` on an object with no
bases or descendants). -/
def applyCmdColl (coll : Coll) (c : ChildCmd) : Coll :=
  match c with
  | .createRef n ch => setRef coll n ch
  | .alterRef n ch => setRef coll n ch
  | .deleteRef n => delRef coll n

/-- Modelled from the spec: applying a children diff to an object
updates both the local and the full collection (the full collection
holds the same references). -/
def applyChildCmds (t : TObj) (cs : List ChildCmd) : TObj :=
  { t with locals := cs.foldl applyCmdColl t.locals
           fulls := cs.foldl applyCmdColl t.fulls }

/-- Modelled from the spec: applying own-object field changes. -/
def applyFields (f : List (Nat × Nat)) (ops : List (Nat × Nat)) :
    List (Nat × Nat) :=
  ops.foldl (fun acc p =>
    if acc.any (fun q => q.1 == p.1) then
      acc.map (fun q => if q.1 = p.1 then p else q)
    else acc ++ [p]) f

/-- Modelled from the spec: the command-application state machine on one
object — field changes then children diff, groups in list order. -/
def applyDelta (t : TObj) (c : ObjCmd) : TObj :=
  match c with
  | .createObj n fields subs =>
      applyChildCmds { t with tname := n, ofields := applyFields t.ofields fields } subs
  | .alterObj _ fields subs =>
      applyChildCmds { t with ofields := applyFields t.ofields fields } subs
  | .cmdGroup c1 c2 => applyDelta (applyDelta t c1) c2

/-- Local collection keys are full collection keys. -/
def InvA (db : DB) : Prop :=
  ∀ o ∈ db, ∀ n ∈ refNames o.locals, hasRef o.fulls n = true

/-- A name declared locally on an object is present in the full
collection of every descendant that does not also declare it locally. -/
def InvB (db : DB) : Prop :=
  ∀ o ∈ db, ∀ d ∈ db, o.oid ∈ d.ancestors →
    ∀ n ∈ refNames o.locals,
      hasRef d.locals n = false → hasRef d.fulls n = true

instance decEqExcept {ε α : Type} [DecidableEq ε] [DecidableEq α] :
    DecidableEq (Except ε α) := fun a b =>
  match a, b with
  | .error e, .error f =>
    if h : e = f then .isTrue (by rw [h])
    else .isFalse (fun hh => h (by injection hh))
  | .error _, .ok _ => .isFalse (fun hh => Except.noConfusion hh)
  | .ok _, .error _ => .isFalse (fun hh => Except.noConfusion hh)
  | .ok x, .ok y =>
    if h : x = y then .isTrue (by rw [h])
    else .isFalse (fun hh => h (by injection hh))

instance decInvA (db : DB) : Decidable (InvA db) :=
  inferInstanceAs
    (Decidable (∀ o ∈ db, ∀ n ∈ refNames o.locals, hasRef o.fulls n = true))

instance decInvB (db : DB) : Decidable (InvB db) :=
  inferInstanceAs
    (Decidable (∀ o ∈ db, ∀ d ∈ db, o.oid ∈ d.ancestors →
      ∀ n ∈ refNames o.locals,
        hasRef d.locals n = false → hasRef d.fulls n = true))

/-- Did the per-key merge succeed (no definition error raised)? -/
def isOkMerge : Except MergeErr (Coll × Coll) → Bool
  | .ok _ => true
  | .error _ => false

/-- A child declared on the root owner (oid 0) under key 5. -/
def cA : Child := ⟨5, 0, false, ∅, 9⟩

/-- A child whose origin owner (backref) is object 7, under key 5. -/
def cB : Child := ⟨5, 7, false, ∅, 3⟩

/-- A locally declared child of object 2, not tagged `inherited`. -/
def cL : Child := ⟨5, 2, false, ∅, 4⟩

/-- A one-object schema whose owner already declares key 5 locally. -/
def dbOne : DB := [⟨0, [], [], [(5, cA)], [(5, cA)]⟩]

/-- An owner (oid 0) with one descendant (oid 1), no references yet. -/
def dbTwo : DB := [⟨0, [], [], [], []⟩, ⟨1, [0], [0], [], []⟩]

/-- Owner 0 declaring key 5, child 1 inheriting it, grandchild 2
overriding it locally. -/
def dbThree : DB :=
  [⟨0, [], [], [(5, cA)], [(5, cA)]⟩,
   ⟨1, [0], [0], [], [(5, cA)]⟩,
   ⟨2, [1], [1, 0], [(5, cL)], [(5, cL)]⟩]

/-- Owner 0 declaring key 5, child 1 and grandchild 2 both inheriting
it with no local override. -/
def dbFour : DB :=
  [⟨0, [], [], [(5, cA)], [(5, cA)]⟩,
   ⟨1, [0], [0], [], [(5, cA)]⟩,
   ⟨2, [1], [1, 0], [], [(5, cA)]⟩]

/-- A base that inherits child `cB` (origin owner 7) under key 5. -/
def bA : SObj := ⟨1, [7], [7], [], [(5, cB)]⟩

/-- A second base inheriting the same child `cB` under key 5. -/
def bB : SObj := ⟨2, [7], [7], [], [(5, cB)]⟩

/-- An object with one base whose full collection has key 5. -/
def selfSeven : SObj := ⟨0, [1], [1], [], [(5, cA)]⟩

/-- The base of `selfSeven`, declaring key 5 locally. -/
def baseSeven : SObj := ⟨1, [], [], [(5, cB)], [(5, cB)]⟩

/-- An old version carrying an inherited (non-local) entry in its full
collection. -/
def tOld : TObj := ⟨0, [], [], [(5, cA)]⟩

/-- The same object after its base stopped providing key 5. -/
def tNew : TObj := ⟨0, [], [], []⟩

/-- An old version with one local child, full collection coinciding. -/
def tOld2 : TObj := ⟨0, [], [(5, cA)], [(5, cA)]⟩

/-- A new version altering child 5 and adding child 6. -/
def tNew2 : TObj := ⟨0, [], [(5, cL), (6, cB)], [(5, cL), (6, cB)]⟩

/-- An old version with local child 5 and an inherited (non-local)
entry under key 9. -/
def tOld3 : TObj := ⟨0, [], [(5, cA)], [(5, cA), (9, cB)]⟩

/-- The next version: child 5 altered, child 6 created, and the same
inherited entry under key 9. -/
def tNew3 : TObj :=
  ⟨0, [], [(5, cL), (6, cB)], [(5, cL), (6, cB), (9, cB)]⟩

theorem getRef_setRef_self (c : Coll) (n : Nat) (v : Child) :
    getRef (setRef c n v) n = some v := by
  induction c with
  | nil => simp [setRef, getRef]
  | cons p t ih =>
    by_cases h : p.1 = n
    · simp [setRef, getRef, h]
    · simp [setRef, getRef, h, ih]

theorem getRef_setRef_ne (c : Coll) {m n : Nat} (v : Child) (h : m ≠ n) :
    getRef (setRef c n v) m = getRef c m := by
  have hnm : ¬ (n = m) := fun hh => h hh.symm
  induction c with
  | nil => simp [setRef, getRef, hnm]
  | cons p t ih =>
    by_cases hp : p.1 = n
    · rw [setRef, if_pos hp, getRef, if_neg hnm, getRef, hp, if_neg hnm]
    · rw [setRef, if_neg hp]
      by_cases hm : p.1 = m
      · rw [getRef, if_pos hm, getRef, if_pos hm]
      · rw [getRef, if_neg hm, getRef, if_neg hm, ih]

theorem getRef_delRef_self (c : Coll) (n : Nat) :
    getRef (delRef c n) n = none := by
  induction c with
  | nil => simp [delRef, getRef]
  | cons p t ih =>
    by_cases h : p.1 = n
    · simp [delRef, h, ih]
    · simp [delRef, getRef, h, ih]

theorem getRef_delRef_ne (c : Coll) {m n : Nat} (h : m ≠ n) :
    getRef (delRef c n) m = getRef c m := by
  induction c with
  | nil => simp [delRef]
  | cons p t ih =>
    by_cases hp : p.1 = n
    · have hpm : ¬ (p.1 = m) := by rw [hp]; exact fun hh => h hh.symm
      rw [delRef, if_pos hp, ih, getRef, if_neg hpm]
    · by_cases hm : p.1 = m
      · rw [delRef, if_neg hp, getRef, if_pos hm, getRef, if_pos hm]
      · rw [delRef, if_neg hp, getRef, if_neg hm, getRef, if_neg hm, ih]

theorem getRef_eq_none_iff (c : Coll) (n : Nat) :
    getRef c n = none ↔ n ∉ refNames c := by
  induction c with
  | nil => simp [getRef, refNames]
  | cons p t ih =>
    by_cases h : p.1 = n
    · simp [getRef, refNames, h]
    · have hnp : ¬ (n = p.1) := fun hh => h hh.symm
      simp [getRef, refNames, h, ih, hnp]

theorem hasRef_iff_mem (c : Coll) (n : Nat) :
    hasRef c n = true ↔ n ∈ refNames c := by
  rw [hasRef, Option.isSome_iff_ne_none]
  constructor
  · intro h
    by_contra hn
    exact h ((getRef_eq_none_iff c n).mpr hn)
  · intro h hn
    exact ((getRef_eq_none_iff c n).mp hn) h

theorem hasRef_eq_false_iff (c : Coll) (n : Nat) :
    hasRef c n = false ↔ getRef c n = none := by
  rw [hasRef]
  cases getRef c n <;> simp

theorem hasRef_setRef (c : Coll) (n m : Nat) (v : Child) :
    hasRef (setRef c n v) m = true ↔ m = n ∨ hasRef c m = true := by
  by_cases h : m = n
  · subst h
    simp [hasRef, getRef_setRef_self]
  · rw [hasRef, hasRef, getRef_setRef_ne c v h]
    simp [h]

theorem hasRef_delRef (c : Coll) (n m : Nat) :
    hasRef (delRef c n) m = true ↔ m ≠ n ∧ hasRef c m = true := by
  by_cases h : m = n
  · subst h
    simp [hasRef, getRef_delRef_self]
  · rw [hasRef, hasRef, getRef_delRef_ne c h]
    simp [h]

theorem mem_refNames_setRef (c : Coll) (n m : Nat) (v : Child) :
    m ∈ refNames (setRef c n v) ↔ m = n ∨ m ∈ refNames c := by
  rw [← hasRef_iff_mem, ← hasRef_iff_mem, hasRef_setRef]

theorem refNames_setRef_of_mem (c : Coll) (n : Nat) (v : Child)
    (h : n ∈ refNames c) : refNames (setRef c n v) = refNames c := by
  induction c with
  | nil => simp [refNames] at h
  | cons p t ih =>
    by_cases hp : p.1 = n
    · simp [setRef, refNames, hp]
    · have ht : n ∈ refNames t := by
        rw [refNames, List.mem_cons] at h
        rcases h with h1 | h1
        · exact absurd h1.symm hp
        · exact h1
      simp [setRef, refNames, hp, ih ht]

theorem refNames_setRef_nodup (c : Coll) (n : Nat) (v : Child)
    (h : (refNames c).Nodup) : (refNames (setRef c n v)).Nodup := by
  induction c with
  | nil => simp [setRef, refNames]
  | cons p t ih =>
    rw [refNames, List.nodup_cons] at h
    by_cases hp : p.1 = n
    · rw [setRef, if_pos hp, refNames, List.nodup_cons]
      exact ⟨hp ▸ h.1, h.2⟩
    · rw [setRef, if_neg hp, refNames, List.nodup_cons]
      refine ⟨?_, ih h.2⟩
      intro hmem
      rcases (mem_refNames_setRef t n p.1 v).mp hmem with h1 | h1
      · exact hp h1
      · exact h.1 h1

theorem setRef_eq_of_getRef (c : Coll) (n : Nat) (v : Child)
    (hnd : (refNames c).Nodup) (h : getRef c n = some v) : setRef c n v = c := by
  induction c with
  | nil => simp [getRef] at h
  | cons p t ih =>
    rw [refNames, List.nodup_cons] at hnd
    by_cases hp : p.1 = n
    · rw [getRef, if_pos hp] at h
      have hv : p.2 = v := by injection h
      rw [setRef, if_pos hp, ← hp, ← hv]

    · rw [getRef, if_neg hp] at h
      rw [setRef, if_neg hp, ih hnd.2 h]

theorem findObj_oid {db : DB} {i : Nat} {o : SObj}
    (h : findObj db i = some o) : o.oid = i := by
  have := List.find?_some h
  simpa using this

theorem findObj_map (db : DB) (i : Nat) (g : SObj → SObj)
    (hg : ∀ x, (g x).oid = x.oid) :
    findObj (db.map g) i = (findObj db i).map g := by
  induction db with
  | nil => rfl
  | cons x xs ih =>
    by_cases h : x.oid = i
    · have h1 : ((g x).oid == i) = true := by simp [hg, h]
      have h2 : (x.oid == i) = true := by simp [h]
      simp [findObj, List.find?_cons, h1, h2]
    · have h1 : ((g x).oid == i) = false := by simp [hg, h]
      have h2 : (x.oid == i) = false := by simp [h]
      simp only [findObj, List.map_cons, List.find?_cons, h1, h2]
      simpa [findObj] using ih

/-- C10: applying a rename whose old and new shortnames coincide inside
a referrer context leaves the schema unchanged: the referrer's full and
local collections and every descendant's collections are untouched. -/
theorem renameInnards_same_name (db : DB) (ownerId n : Nat) :
    renameInnards db ownerId n n = db := by
  simp [renameInnards]

/-- C6: `add_classref` with `replace = false` raises a
duplicate-reference error carrying the child's source location exactly
when the child's shortname is already a key of the owner's local
collection; otherwise (or with `replace = true`) it returns a schema in
which the child is bound to its shortname in both the owner's local and
full collections. -/
theorem addClassref_spec (db : DB) (ownerId : Nat) (obj : Child)
    (replace : Bool) (owner : SObj) (hown : findObj db ownerId = some owner) :
    (hasRef owner.locals obj.shortname = true ∧ replace = false →
      addClassref db ownerId obj replace =
        .error (.duplicateRef obj.sourcectx)) ∧
    (hasRef owner.locals obj.shortname = false ∨ replace = true →
      ∃ db', addClassref db ownerId obj replace = .ok db' ∧
        ∃ owner', findObj db' ownerId = some owner' ∧
          getRef owner'.locals obj.shortname = some obj ∧
          getRef owner'.fulls obj.shortname = some obj) := by
  constructor
  · intro hdup
    rw [addClassref, hown]
    simp only [if_pos hdup]
  · intro hfree
    rw [addClassref, hown]
    have hcond : ¬ (hasRef owner.locals obj.shortname = true ∧ replace = false) := by
      rcases hfree with h1 | h1
      · intro hc
        rw [h1] at hc
        exact absurd hc.1 (by simp)
      · intro hc
        rw [h1] at hc
        exact absurd hc.2 (by simp)
    simp only [if_neg hcond]
    refine ⟨_, rfl, ?_⟩
    have hg : ∀ x, (addStep ownerId obj x).oid = x.oid := by
      intro x
      by_cases hx : x.oid = ownerId <;> simp [addStep, hx]
    refine ⟨addStep ownerId obj owner, ?_, ?_, ?_⟩
    · rw [findObj_map db ownerId _ hg, hown]
      rfl
    · rw [addStep]
      simp only [findObj_oid hown, if_pos rfl]
      exact getRef_setRef_self _ _ _
    · rw [addStep]
      simp only [findObj_oid hown, if_pos rfl]
      exact getRef_setRef_self _ _ _

theorem inv_map_preserved (db : DB) (F : SObj → SObj) (key ownerId : Nat)
    (hA : InvA db) (hB : InvB db)
    (hoid : ∀ x, (F x).oid = x.oid)
    (hanc : ∀ x, (F x).ancestors = x.ancestors)
    (hloc : ∀ x n, hasRef (F x).locals n = true →
      hasRef x.locals n = true ∨ (n = key ∧ x.oid = ownerId))
    (hlocmono : ∀ x n, hasRef x.locals n = true → hasRef (F x).locals n = true)
    (hfullmono : ∀ x n, hasRef x.fulls n = true → hasRef (F x).fulls n = true)
    (howner : ∀ x ∈ db, x.oid = ownerId →
      hasRef (F x).locals key = true ∧ hasRef (F x).fulls key = true)
    (hdesc : ∀ x ∈ db, ownerId ∈ x.ancestors → hasRef x.locals key = false →
      hasRef (F x).fulls key = true) :
    InvA (db.map F) ∧ InvB (db.map F) := by
  constructor
  · intro o' ho' n hn
    obtain ⟨o, ho, rfl⟩ := List.mem_map.mp ho'
    have hn' : hasRef (F o).locals n = true := (hasRef_iff_mem _ _).mpr hn
    rcases hloc o n hn' with h1 | ⟨rfl, h2⟩
    · exact hfullmono o n
        (hA o ho n ((hasRef_iff_mem _ _).mp h1))
    · exact (howner o ho h2).2
  · intro o' ho' d' hd' hancmem n hn hdl
    obtain ⟨o, ho, rfl⟩ := List.mem_map.mp ho'
    obtain ⟨d, hd, rfl⟩ := List.mem_map.mp hd'
    rw [hoid o, hanc d] at hancmem
    have hn' : hasRef (F o).locals n = true := (hasRef_iff_mem _ _).mpr hn
    have hdl' : hasRef d.locals n = false := by
      cases hcase : hasRef d.locals n
      · rfl
      · rw [hlocmono d n hcase] at hdl
        exact absurd hdl (by simp)
    rcases hloc o n hn' with h1 | ⟨rfl, h2⟩
    · exact hfullmono d n
        (hB o ho d hd hancmem n ((hasRef_iff_mem _ _).mp h1) hdl')
    · by_cases hdo : d.oid = ownerId
      · rw [(howner d hd hdo).1] at hdl
        exact absurd hdl (by simp)
      · exact hdesc d hd (h2 ▸ hancmem) hdl'

theorem addClassref_ok_cases (db : DB) (ownerId : Nat) (obj : Child)
    (replace : Bool) (db1 : DB)
    (h : addClassref db ownerId obj replace = .ok db1) :
    (findObj db ownerId = none ∧ db1 = db) ∨
    (∃ owner, findObj db ownerId = some owner ∧
      db1 = db.map (addStep ownerId obj)) := by
  rw [addClassref] at h
  cases hfind : findObj db ownerId with
  | none =>
    rw [hfind] at h
    refine Or.inl ⟨rfl, ?_⟩
    have := (Except.ok.injEq _ _).mp h
    exact this.symm
  | some owner =>
    rw [hfind] at h
    have h' : (if hasRef owner.locals obj.shortname = true ∧ replace = false
        then (Except.error (SchemaErr.duplicateRef obj.sourcectx) : Except SchemaErr DB)
        else .ok (db.map (addStep ownerId obj))) = .ok db1 := h
    by_cases hc : hasRef owner.locals obj.shortname = true ∧ replace = false
    · rw [if_pos hc] at h'
      exact absurd h' (by simp)
    · rw [if_neg hc] at h'
      refine Or.inr ⟨owner, rfl, ?_⟩
      have := (Except.ok.injEq _ _).mp h'
      exact this.symm

/-- C1: `_create_innards` (which performs `add_classref` on the referrer
and cascades the new reference into every non-overriding descendant's
full collection) preserves the refdict invariant: every name in an
object's local collection is in its full collection, and is in the full
collection of every descendant that does not also declare it locally. -/
theorem createInnards_preserves_invariants (db db' : DB) (ownerId : Nat)
    (scls : Child) (hA : InvA db) (hB : InvB db)
    (h : createInnards db ownerId scls = .ok db') :
    InvA db' ∧ InvB db' := by
  rw [createInnards] at h
  set obj : Child := { scls with backref := ownerId } with hobj
  have hcasc_oid : ∀ x, (cascadeStep ownerId obj x).oid = x.oid := by
    intro x
    rw [cascadeStep]
    by_cases hx : ownerId ∈ x.ancestors ∧ hasRef x.locals obj.shortname = false <;>
      simp [hx]
  have hcasc_anc : ∀ x, (cascadeStep ownerId obj x).ancestors = x.ancestors := by
    intro x
    rw [cascadeStep]
    by_cases hx : ownerId ∈ x.ancestors ∧ hasRef x.locals obj.shortname = false <;>
      simp [hx]
  have hcasc_loc : ∀ x, (cascadeStep ownerId obj x).locals = x.locals := by
    intro x
    rw [cascadeStep]
    by_cases hx : ownerId ∈ x.ancestors ∧ hasRef x.locals obj.shortname = false <;>
      simp [hx]
  have hcasc_full : ∀ x n, hasRef x.fulls n = true →
      hasRef (cascadeStep ownerId obj x).fulls n = true := by
    intro x n hx
    rw [cascadeStep]
    by_cases hc : ownerId ∈ x.ancestors ∧ hasRef x.locals obj.shortname = false
    · simp only [if_pos hc]
      exact (hasRef_setRef _ _ _ _).mpr (Or.inr hx)
    · simp only [if_neg hc]
      exact hx
  cases hadd : addClassref db ownerId obj false with
  | error e =>
    rw [hadd] at h
    exact absurd h (by simp)
  | ok db1 =>
    rw [hadd] at h
    have hdb' : db' = db1.map (cascadeStep ownerId obj) := by
      have := (Except.ok.injEq _ _).mp h
      exact this.symm
    rcases addClassref_ok_cases db ownerId obj false db1 hadd with
      ⟨hfind, hdb1⟩ | ⟨owner, hfind, hdb1⟩
    · rw [hdb1] at hdb'
      rw [hdb']
      have hnone : ∀ x ∈ db, ¬ (x.oid = ownerId) := by
        intro x hx hx2
        have := List.find?_eq_none.mp hfind x hx
        simp [hx2] at this
      exact inv_map_preserved db _ obj.shortname ownerId hA hB hcasc_oid hcasc_anc
        (fun x n hn => Or.inl (by rw [hcasc_loc x] at hn; exact hn))
        (fun x n hn => by rw [hcasc_loc x]; exact hn)
        hcasc_full
        (fun x hx hx2 => absurd hx2 (hnone x hx))
        (fun x hx hx2 hx3 => by
          rw [cascadeStep]
          simp only [if_pos (And.intro hx2 hx3)]
          exact (hasRef_setRef _ _ _ _).mpr (Or.inl rfl))
    · rw [hdb1] at hdb'
      rw [hdb', List.map_map]
      have hcomp : (cascadeStep ownerId obj ∘ addStep ownerId obj) =
          fun x => cascadeStep ownerId obj (addStep ownerId obj x) := rfl
      rw [hcomp]
      have hadd_oid : ∀ x, (addStep ownerId obj x).oid = x.oid := by
        intro x
        rw [addStep]
        by_cases hx : x.oid = ownerId <;> simp [hx]
      have hadd_anc : ∀ x, (addStep ownerId obj x).ancestors = x.ancestors := by
        intro x
        rw [addStep]
        by_cases hx : x.oid = ownerId <;> simp [hx]
      refine inv_map_preserved db _ obj.shortname ownerId hA hB
        (fun x => by rw [hcasc_oid, hadd_oid])
        (fun x => by rw [hcasc_anc, hadd_anc])
        ?_ ?_ ?_ ?_ ?_
      · intro x n hn
        rw [hcasc_loc] at hn
        rw [addStep] at hn
        by_cases hx : x.oid = ownerId
        · simp only [if_pos hx] at hn
          rcases (hasRef_setRef _ _ _ _).mp hn with h1 | h1
          · exact Or.inr ⟨h1, hx⟩
          · exact Or.inl h1
        · simp only [if_neg hx] at hn
          exact Or.inl hn
      · intro x n hn
        rw [hcasc_loc, addStep]
        by_cases hx : x.oid = ownerId
        · simp only [if_pos hx]
          exact (hasRef_setRef _ _ _ _).mpr (Or.inr hn)
        · simp only [if_neg hx]
          exact hn
      · intro x n hn
        refine hcasc_full _ n ?_
        rw [addStep]
        by_cases hx : x.oid = ownerId
        · simp only [if_pos hx]
          exact (hasRef_setRef _ _ _ _).mpr (Or.inr hn)
        · simp only [if_neg hx]
          exact hn
      · intro x _ hx
        constructor
        · rw [hcasc_loc, addStep]
          simp only [if_pos hx]
          exact (hasRef_setRef _ _ _ _).mpr (Or.inl rfl)
        · refine hcasc_full _ _ ?_
          rw [addStep]
          simp only [if_pos hx]
          exact (hasRef_setRef _ _ _ _).mpr (Or.inl rfl)
      · intro x _ hx2 hx3
        by_cases hx : x.oid = ownerId
        · refine hcasc_full _ _ ?_
          rw [addStep]
          simp only [if_pos hx]
          exact (hasRef_setRef _ _ _ _).mpr (Or.inl rfl)
        · have hstep : addStep ownerId obj x = x := by
            rw [addStep, if_neg hx]
          rw [hstep, cascadeStep]
          simp only [if_pos (And.intro hx2 hx3)]
          exact (hasRef_setRef _ _ _ _).mpr (Or.inl rfl)

/-- Witness for C1 at a concrete schema: an owner with one descendant,
receiving a new child under key 5. -/
theorem createInnards_preserves_invariants_witness :
    InvA [⟨0, [], [], [(5, cA)], [(5, cA)]⟩,
          ⟨1, [0], [0], [], [(5, cA)]⟩] ∧
    InvB [⟨0, [], [], [(5, cA)], [(5, cA)]⟩,
          ⟨1, [0], [0], [], [(5, cA)]⟩] :=
  createInnards_preserves_invariants dbTwo _ 0 cA
    (by decide) (by decide) (by decide)

theorem addClassref_spec_witness :
    addClassref dbOne 0 cA false = .error (.duplicateRef 9) :=
  (addClassref_spec dbOne 0 cA false ⟨0, [], [], [(5, cA)], [(5, cA)]⟩
    (by decide)).1 ⟨by decide, rfl⟩

theorem delRef_eq_of_not_has (c : Coll) (n : Nat)
    (h : hasRef c n = false) : delRef c n = c := by
  induction c with
  | nil => rfl
  | cons p t ih =>
    by_cases hp : p.1 = n
    · exfalso
      rw [hasRef, getRef, if_pos hp] at h
      simp at h
    · rw [delRef, if_neg hp, ih]
      rw [hasRef, getRef, if_neg hp] at h
      exact h

theorem delStep_eq (ownerId k : Nat) (inh : Bool) (d : SObj) :
    delStep ownerId k inh d =
      if inh = false ∧ d.oid = ownerId then
        { d with fulls := delRef d.fulls k, locals := delRef d.locals k }
      else if inh = false ∧ ownerId ∈ d.ancestors ∧ hasRef d.locals k = false then
        { d with fulls := delRef d.fulls k }
      else if d.oid = ownerId then
        { d with locals := delRef d.locals k }
      else d := by
  cases inh with
  | true =>
    by_cases h1 : d.oid = ownerId
    · cases hl : hasRef d.locals k with
      | true => simp [delStep, h1, hl]
      | false =>
        simp [delStep, h1, hl, delRef_eq_of_not_has _ _ hl]
        rw [← h1]
    · simp [delStep, h1]
  | false =>
    by_cases h1 : d.oid = ownerId
    · cases hl : hasRef d.locals k with
      | true => simp [delStep, h1, hl]
      | false => simp [delStep, h1, hl, delRef_eq_of_not_has _ _ hl]
    · by_cases h2 : ownerId ∈ d.ancestors ∧ hasRef d.locals k = false
      · simp [delStep, h1, h2.1, h2.2]
      · simp [delStep, h1, h2]

/-- C3: `del_classref(owner, k)` when no base of the owner has `k` in
its full collection removes `k` from the owner's full and local
collections and from the full collection of every descendant without a
local `k`, while leaving every object that declares `k` locally (other
than the owner) completely untouched; when some base does have `k`, only
the owner's local entry is removed and no full collection changes. -/
theorem delClassref_spec (db : DB) (ownerId k : Nat) (owner : SObj)
    (hown : findObj db ownerId = some owner) :
    (owner.bases.any (fun b => baseHas db b k) = false →
      delClassref db ownerId k = db.map (delStep ownerId k false) ∧
      (∀ d : SObj, d.oid = ownerId →
        hasRef (delStep ownerId k false d).fulls k = false ∧
        hasRef (delStep ownerId k false d).locals k = false) ∧
      (∀ d : SObj, ¬ (d.oid = ownerId) → ownerId ∈ d.ancestors →
        hasRef d.locals k = false →
        hasRef (delStep ownerId k false d).fulls k = false) ∧
      (∀ d : SObj, ¬ (d.oid = ownerId) → hasRef d.locals k = true →
        delStep ownerId k false d = d)) ∧
    (owner.bases.any (fun b => baseHas db b k) = true →
      delClassref db ownerId k = db.map (delStep ownerId k true) ∧
      (∀ d : SObj, d.oid = ownerId →
        (delStep ownerId k true d).fulls = d.fulls ∧
        (delStep ownerId k true d).locals = delRef d.locals k) ∧
      (∀ d : SObj, ¬ (d.oid = ownerId) → delStep ownerId k true d = d)) := by
  constructor
  · intro hinh
    refine ⟨?_, ?_, ?_, ?_⟩
    · rw [delClassref, hown]
      show db.map (delStep ownerId k (owner.bases.any (fun b => baseHas db b k))) = _
      rw [hinh]
    · intro d hd
      rw [delStep_eq, if_pos (And.intro rfl hd)]
      exact ⟨(hasRef_eq_false_iff _ _).mpr (getRef_delRef_self _ _),
             (hasRef_eq_false_iff _ _).mpr (getRef_delRef_self _ _)⟩
    · intro d hd hanc hl
      rw [delStep_eq, if_neg (fun hc => hd hc.2),
        if_pos (And.intro rfl (And.intro hanc hl))]
      exact (hasRef_eq_false_iff _ _).mpr (getRef_delRef_self _ _)
    · intro d hd hl
      have h2 : ¬ ((false : Bool) = false ∧ ownerId ∈ d.ancestors ∧
          hasRef d.locals k = false) := by
        intro hc
        rw [hl] at hc
        exact absurd hc.2.2 (by simp)
      rw [delStep_eq, if_neg (fun hc => hd hc.2), if_neg h2, if_neg hd]
  · intro hinh
    refine ⟨?_, ?_, ?_⟩
    · rw [delClassref, hown]
      show db.map (delStep ownerId k (owner.bases.any (fun b => baseHas db b k))) = _
      rw [hinh]
    · intro d hd
      rw [delStep_eq,
        if_neg (show ¬ ((true : Bool) = false ∧ d.oid = ownerId) by simp),
        if_neg (show ¬ ((true : Bool) = false ∧ ownerId ∈ d.ancestors ∧
          hasRef d.locals k = false) by simp),
        if_pos hd]
      exact ⟨rfl, rfl⟩
    · intro d hd
      rw [delStep_eq,
        if_neg (show ¬ ((true : Bool) = false ∧ d.oid = ownerId) by simp),
        if_neg (show ¬ ((true : Bool) = false ∧ ownerId ∈ d.ancestors ∧
          hasRef d.locals k = false) by simp),
        if_neg hd]

/-- Witness for C3 at a concrete schema: owner 0 declares key 5 locally,
child 1 inherits it, grandchild 2 overrides it locally; deleting key 5
on owner 0 empties the owner's collections and leaves the overriding
grandchild untouched. -/
theorem delClassref_spec_witness :
    hasRef (delStep 0 5 false ⟨0, [], [], [(5, cA)], [(5, cA)]⟩).fulls 5 = false ∧
    delStep 0 5 false ⟨2, [1], [1, 0], [(5, cL)], [(5, cL)]⟩ =
      ⟨2, [1], [1, 0], [(5, cL)], [(5, cL)]⟩ :=
  ⟨(((delClassref_spec dbThree 0 5 ⟨0, [], [], [(5, cA)], [(5, cA)]⟩
      (by decide)).1 (by decide)).2.1 _ rfl).1,
   (((delClassref_spec dbThree 0 5 ⟨0, [], [], [(5, cA)], [(5, cA)]⟩
      (by decide)).1 (by decide)).2.2.2 _ (by decide) (by decide))⟩

/-- Counterexample to C4: object 2 in `dbFour` is a descendant of the
renamed owner 0 (`ancestors = [1, 0]`) with no local override of key 5,
so by the claim the rename 5 → 7 should rebind key 5 to 7 in its full
collection; but `_rename_innards` only visits *direct* children
(`referrer.children`), and object 2 keeps the old key 5 and never
receives the new key 7. -/
theorem renameInnards_descendants_cex :
    findObj (renameInnards dbFour 0 5 7) 2 =
      some ⟨2, [1], [1, 0], [], [(5, cA)]⟩ ∧
    hasRef [(5, cA)] 5 = true ∧ hasRef [(5, cA)] 7 = false := by
  decide

theorem renameKey_moves (c : Coll) {oldN newN : Nat} (hne : ¬ (oldN = newN))
    (h : hasRef c oldN = true) :
    hasRef (renameKey c oldN newN) oldN = false ∧
    getRef (renameKey c oldN newN) newN = getRef c oldN := by
  rw [hasRef] at h
  cases hget : getRef c oldN with
  | none => rw [hget] at h; simp at h
  | some r =>
    rw [renameKey, hget]
    constructor
    · rw [hasRef, getRef_setRef_ne _ _ hne, getRef_delRef_self]
      rfl
    · rw [getRef_setRef_self]

/-- C4 (amended): when a rename is applied within a referrer context and
the shortnames differ, the owner's full and local collections are
rekeyed (old key removed, new key bound to the same reference), as is
the full collection of every *direct* child of the owner whose full
collection contains the old key — regardless of local overrides; all
other objects, including descendants that are not direct children, are
left unchanged. -/
theorem renameInnards_spec (db : DB) (ownerId oldN newN : Nat) (owner : SObj)
    (hown : findObj db ownerId = some owner) (hne : ¬ (oldN = newN)) :
    renameInnards db ownerId oldN newN = db.map (renameStep ownerId oldN newN) ∧
    (∀ d : SObj, d.oid = ownerId →
      (renameStep ownerId oldN newN d).fulls = renameKey d.fulls oldN newN ∧
      (renameStep ownerId oldN newN d).locals = renameKey d.locals oldN newN) ∧
    (∀ d : SObj, ¬ (d.oid = ownerId) → ownerId ∈ d.bases →
      hasRef d.fulls oldN = true →
      (renameStep ownerId oldN newN d).fulls = renameKey d.fulls oldN newN ∧
      (renameStep ownerId oldN newN d).locals = d.locals) ∧
    (∀ d : SObj, ¬ (d.oid = ownerId) →
      (ownerId ∉ d.bases ∨ hasRef d.fulls oldN = false) →
      renameStep ownerId oldN newN d = d) ∧
    (∀ c : Coll, hasRef c oldN = true →
      hasRef (renameKey c oldN newN) oldN = false ∧
      getRef (renameKey c oldN newN) newN = getRef c oldN) := by
  refine ⟨?_, ?_, ?_, ?_, fun c hc => renameKey_moves c hne hc⟩
  · rw [renameInnards, if_neg hne, hown]
  · intro d hd
    rw [renameStep, if_pos hd]
    exact ⟨rfl, rfl⟩
  · intro d hd hb hf
    rw [renameStep, if_neg hd, if_pos (And.intro hb hf)]
    exact ⟨rfl, rfl⟩
  · intro d hd hdisj
    have hc2 : ¬ (ownerId ∈ d.bases ∧ hasRef d.fulls oldN = true) := by
      intro hc
      rcases hdisj with h1 | h1
      · exact h1 hc.1
      · rw [h1] at hc
        exact absurd hc.2 (by simp)
    rw [renameStep, if_neg hd, if_neg hc2]

/-- Witness for the amended C4 at a concrete collection: renaming key 5
to 7 removes the old key and binds the new key to the original
reference. -/
theorem renameInnards_spec_witness :
    hasRef (renameKey [(5, cA)] 5 7) 5 = false ∧
    getRef (renameKey [(5, cA)] 5 7) 7 = getRef [(5, cA)] 5 :=
  ((renameInnards_spec dbFour 0 5 7 ⟨0, [], [], [(5, cA)], [(5, cA)]⟩
    (by decide) (by decide)).2.2.2.2) [(5, cA)] (by decide)

theorem foldl_upsert_const (c : Child) (cs : List Child)
    (h : ∀ x ∈ cs, x = c) : cs.foldl upsertByBackref [c] = [c] := by
  induction cs with
  | nil => rfl
  | cons x rest ih =>
    have hx : x = c := h x (List.mem_cons_self _ _)
    subst hx
    have hstep : upsertByBackref [x] x = [x] := by
      simp [upsertByBackref]
    rw [List.foldl_cons, hstep]
    exact ih (fun y hy => h y (List.mem_cons_of_mem _ hy))

theorem dedupByBackref_const (c : Child) (cs : List Child) (hne : cs ≠ [])
    (h : ∀ x ∈ cs, x = c) : dedupByBackref cs = [c] := by
  cases cs with
  | nil => exact absurd rfl hne
  | cons x rest =>
    have hx : x = c := h x (List.mem_cons_self _ _)
    subst hx
    have hfirst : upsertByBackref [] x = [x] := by simp [upsertByBackref]
    rw [dedupByBackref, List.foldl_cons, hfirst]
    exact foldl_upsert_const x rest (fun y hy => h y (List.mem_cons_of_mem _ hy))

theorem upsert_length (acc : List Child) (x : Child) :
    acc.length ≤ (upsertByBackref acc x).length := by
  rw [upsertByBackref]
  by_cases h : acc.any (fun a => a.backref == x.backref) = true
  · simp [h]
  · have h' : acc.any (fun a => a.backref == x.backref) = false := by
      cases hc : acc.any (fun a => a.backref == x.backref)
      · rfl
      · exact absurd hc h
    simp [h']

theorem foldl_upsert_length (cs : List Child) (acc : List Child) :
    acc.length ≤ (cs.foldl upsertByBackref acc).length := by
  induction cs generalizing acc with
  | nil => exact Nat.le_refl _
  | cons x rest ih =>
    rw [List.foldl_cons]
    exact Nat.le_trans (upsert_length acc x) (ih _)

theorem dedupByBackref_ne_nil (cs : List Child) (h : cs ≠ []) :
    dedupByBackref cs ≠ [] := by
  cases cs with
  | nil => exact absurd rfl h
  | cons x rest =>
    have hfirst : upsertByBackref [] x = [x] := by simp [upsertByBackref]
    rw [dedupByBackref, List.foldl_cons, hfirst]
    intro hnil
    have := foldl_upsert_length rest [x]
    rw [hnil] at this
    simp at this

/-- C2: in the per-key merge, inherited candidates are deduplicated by
the origin owner stored in `backref_attr`; when every base contributing
the key contributes the very same origin child `c`, the candidates
collapse to a single inheritance source, the merge takes the pure
inheritance branch (the child reference `c` is shared, not duplicated),
the local collection is untouched, and no definition error is raised
regardless of `requires_explicit_inherit` and of the delta context — no
"inherited" tag is required. -/
theorem mergeKey_diamond (selfId : Nat) (bases : List SObj) (reqExpInh : Bool)
    (dctx : Option Bool) (locals fulls : Coll) (k : Nat) (c : Child)
    (hlocal : getRef locals k = none)
    (hall : ∀ b ∈ bases, getRef b.fulls k = some c ∨ getRef b.fulls k = none)
    (hsome : ∃ b ∈ bases, getRef b.fulls k = some c) :
    dedupByBackref (bases.filterMap (fun b => getRef b.fulls k)) = [c] ∧
    mergeKey selfId bases reqExpInh dctx (locals, fulls) k =
      .ok (locals, setRef fulls k c) := by
  have hmem : ∀ x ∈ bases.filterMap (fun b => getRef b.fulls k), x = c := by
    intro x hx
    obtain ⟨b, hb, hbx⟩ := List.mem_filterMap.mp hx
    rcases hall b hb with h1 | h1
    · rw [h1] at hbx
      exact (Option.some.inj hbx).symm
    · rw [h1] at hbx
      exact absurd hbx (by simp)
  have hne : bases.filterMap (fun b => getRef b.fulls k) ≠ [] := by
    obtain ⟨b, hb, hbc⟩ := hsome
    have : c ∈ bases.filterMap (fun b => getRef b.fulls k) :=
      List.mem_filterMap.mpr ⟨b, hb, hbc⟩
    exact List.ne_nil_of_mem this
  have hdedup : dedupByBackref (bases.filterMap (fun b => getRef b.fulls k)) = [c] :=
    dedupByBackref_const c _ hne hmem
  refine ⟨hdedup, ?_⟩
  unfold mergeKey
  simp only [hlocal, hdedup]

/-- Witness for C2 at a concrete diamond: bases 1 and 2 both inherit the
same child `cB` of origin owner 7 under key 5; the merge on the common
descendant shares the reference and raises no error even with
`requires_explicit_inherit` set in declarative mode. -/
theorem mergeKey_diamond_witness :
    mergeKey 0 [bA, bB] true (some true) ([], [(5, cB)]) 5 =
      .ok ([], setRef [(5, cB)] 5 cB) :=
  (mergeKey_diamond 0 [bA, bB] true (some true) [] [(5, cB)] 5 cB
    (by decide) (by decide) (by decide)).2

/-- Counterexample to C5: `requires_explicit_inherit` is set, a local
child (`cL`) exists under key 5, the final merged value is a fresh
derived copy distinct from the local child (base `bA` contributes an
inherited candidate), and the local child's `declared_inherited` flag is
false — yet no definition error is raised, because the merge is not
running in declarative mode (the delta context is absent): the per-key
merge succeeds. -/
theorem mergeKey_mustInherit_cex :
    isOkMerge (mergeKey 0 [bA] true none ([(5, cL)], [(5, cL)]) 5) = true := by
  decide

/-- C5 (amended): during a declarative-mode merge (delta context present
with the declarative flag set) of a refdict with
`requires_explicit_inherit`, for a key where a local child exists, some
base contributes an inherited candidate (so the final merged value is a
fresh derived copy distinct from the local child), and the local child's
`declared_inherited` flag is false, a definition error is raised naming
the origin owners (ancestors) of the deduplicated inherited candidates,
with the local child's source location. -/
theorem mergeKey_mustInherit (selfId : Nat) (bases : List SObj)
    (locals fulls : Coll) (k : Nat) (l : Child)
    (hlocal : getRef locals k = some l)
    (hflag : l.declared_inherited = false)
    (hinh : bases.filterMap (fun b => getRef b.fulls k) ≠ []) :
    mergeKey selfId bases true (some true) (locals, fulls) k =
      .error (.mustInherit selfId
        ((dedupByBackref (bases.filterMap (fun b => getRef b.fulls k))).map
          (fun p => p.backref)) l.sourcectx) := by
  have hd := dedupByBackref_ne_nil _ hinh
  cases hdd : dedupByBackref (bases.filterMap (fun b => getRef b.fulls k)) with
  | nil => exact absurd hdd hd
  | cons c rest =>
    unfold mergeKey
    simp only [hlocal, hdd]
    rw [if_pos (And.intro trivial (And.intro hflag trivial))]

/-- Witness for the amended C5 at a concrete schema: base `bA`
contributes an inherited candidate of origin owner 7; the local child
`cL` lacks the tag, and the declarative merge raises the error naming
ancestor 7. -/
theorem mergeKey_mustInherit_witness :
    mergeKey 0 [bA] true (some true) ([(5, cL)], [(5, cL)]) 5 =
      .error (.mustInherit 0
        ((dedupByBackref ([bA].filterMap (fun b => getRef b.fulls 5))).map
          (fun p => p.backref)) 4) :=
  mergeKey_mustInherit 0 [bA] [(5, cL)] [(5, cL)] 5 cL (by decide) (by decide)
    (by decide)

theorem mergeKey_ok_cases (selfId : Nat) (bases : List SObj) (req : Bool)
    (dctx : Option Bool) (st st' : Coll × Coll) (k : Nat)
    (h : mergeKey selfId bases req dctx st k = .ok st') :
    (∃ l c rest, getRef st.1 k = some l ∧
      dedupByBackref (bases.filterMap (fun b => getRef b.fulls k)) = c :: rest ∧
      st' = (setRef st.1 k (derive_copy selfId l (c :: rest)),
             setRef st.2 k (derive_copy selfId l (c :: rest)))) ∨
    (∃ c1 c2 rest, getRef st.1 k = none ∧
      dedupByBackref (bases.filterMap (fun b => getRef b.fulls k)) =
        c1 :: c2 :: rest ∧
      st' = (setRef st.1 k (derive selfId c1 (c1 :: c2 :: rest)),
             setRef st.2 k (derive selfId c1 (c1 :: c2 :: rest)))) ∨
    (∃ c, getRef st.1 k = none ∧
      dedupByBackref (bases.filterMap (fun b => getRef b.fulls k)) = [c] ∧
      st' = (st.1, setRef st.2 k c)) ∨
    (∃ l, getRef st.1 k = some l ∧
      dedupByBackref (bases.filterMap (fun b => getRef b.fulls k)) = [] ∧
      l.declared_inherited = false ∧ st' = st) := by
  unfold mergeKey at h
  cases hl : getRef st.1 k with
  | some l =>
    cases hdd : dedupByBackref (bases.filterMap (fun b => getRef b.fulls k)) with
    | nil =>
      simp only [hl, hdd] at h
      by_cases hfl : l.declared_inherited = true
      · rw [if_pos hfl] at h
        exact absurd h (by simp)
      · rw [if_neg hfl] at h
        have hst : (st.1, st.2) = st' := (Except.ok.injEq _ _).mp h
        refine Or.inr (Or.inr (Or.inr ⟨l, rfl, rfl, ?_, hst.symm⟩))
        cases hc : l.declared_inherited
        · rfl
        · exact absurd hc hfl
    | cons c rest =>
      simp only [hl, hdd] at h
      by_cases hcond : req = true ∧ l.declared_inherited = false ∧ dctx = some true
      · rw [if_pos hcond] at h
        exact absurd h (by simp)
      · rw [if_neg hcond] at h
        have hst := (Except.ok.injEq _ _).mp h
        exact Or.inl ⟨l, c, rest, rfl, rfl, hst.symm⟩
  | none =>
    cases hdd : dedupByBackref (bases.filterMap (fun b => getRef b.fulls k)) with
    | nil =>
      simp only [hl, hdd] at h
      exact absurd h (by simp)
    | cons c rest0 =>
      cases rest0 with
      | nil =>
        simp only [hl, hdd] at h
        have hst := (Except.ok.injEq _ _).mp h
        exact Or.inr (Or.inr (Or.inl ⟨c, rfl, rfl, hst.symm⟩))
      | cons c2 rest =>
        simp only [hl, hdd] at h
        have hst := (Except.ok.injEq _ _).mp h
        exact Or.inr (Or.inl ⟨c, c2, rest, rfl, rfl, hst.symm⟩)

theorem mergeKey_frame (selfId : Nat) (bases : List SObj) (req : Bool)
    (dctx : Option Bool) (st st' : Coll × Coll) (k' k : Nat)
    (h : mergeKey selfId bases req dctx st k' = .ok st') (hk : k ≠ k') :
    getRef st'.1 k = getRef st.1 k ∧ getRef st'.2 k = getRef st.2 k := by
  rcases mergeKey_ok_cases selfId bases req dctx st st' k' h with
    ⟨l, c, rest, _, _, hst⟩ | ⟨c1, c2, rest, _, _, hst⟩ |
    ⟨c, _, _, hst⟩ | ⟨l, _, _, _, hst⟩ <;> subst hst
  · exact ⟨getRef_setRef_ne _ _ hk, getRef_setRef_ne _ _ hk⟩
  · exact ⟨getRef_setRef_ne _ _ hk, getRef_setRef_ne _ _ hk⟩
  · exact ⟨rfl, getRef_setRef_ne _ _ hk⟩
  · exact ⟨rfl, rfl⟩

theorem mergeKey_nodup (selfId : Nat) (bases : List SObj) (req : Bool)
    (dctx : Option Bool) (st st' : Coll × Coll) (k : Nat)
    (h : mergeKey selfId bases req dctx st k = .ok st')
    (hl : (refNames st.1).Nodup) (hf : (refNames st.2).Nodup) :
    (refNames st'.1).Nodup ∧ (refNames st'.2).Nodup := by
  rcases mergeKey_ok_cases selfId bases req dctx st st' k h with
    ⟨l, c, rest, _, _, hst⟩ | ⟨c1, c2, rest, _, _, hst⟩ |
    ⟨c, _, _, hst⟩ | ⟨l, _, _, _, hst⟩ <;> subst hst
  · exact ⟨refNames_setRef_nodup _ _ _ hl, refNames_setRef_nodup _ _ _ hf⟩
  · exact ⟨refNames_setRef_nodup _ _ _ hl, refNames_setRef_nodup _ _ _ hf⟩
  · exact ⟨hl, refNames_setRef_nodup _ _ _ hf⟩
  · exact ⟨hl, hf⟩

theorem mergeKey_fullsNames (selfId : Nat) (bases : List SObj) (req : Bool)
    (dctx : Option Bool) (st st' : Coll × Coll) (k : Nat)
    (h : mergeKey selfId bases req dctx st k = .ok st')
    (hk : k ∈ refNames st.2) :
    refNames st'.2 = refNames st.2 := by
  rcases mergeKey_ok_cases selfId bases req dctx st st' k h with
    ⟨l, c, rest, _, _, hst⟩ | ⟨c1, c2, rest, _, _, hst⟩ |
    ⟨c, _, _, hst⟩ | ⟨l, _, _, _, hst⟩ <;> subst hst
  · exact refNames_setRef_of_mem _ _ _ hk
  · exact refNames_setRef_of_mem _ _ _ hk
  · exact refNames_setRef_of_mem _ _ _ hk
  · rfl

theorem derive_copy_absorb (selfId : Nat) (l : Child) (ms : List Child) :
    derive_copy selfId (derive_copy selfId l ms) ms = derive_copy selfId l ms := by
  unfold derive_copy
  simp [Finset.union_assoc]

theorem derive_copy_of_derive (selfId : Nat) (c1 : Child) (ms : List Child) :
    derive_copy selfId (derive selfId c1 ms) ms = derive selfId c1 ms := by
  unfold derive_copy derive
  simp

theorem mergeKey_idem (selfId : Nat) (bases : List SObj) (req : Bool)
    (st st' : Coll × Coll) (k : Nat)
    (h : mergeKey selfId bases req none st k = .ok st')
    (l2 f2 : Coll)
    (hl : getRef l2 k = getRef st'.1 k) (hf : getRef f2 k = getRef st'.2 k)
    (hlnd : (refNames l2).Nodup) (hfnd : (refNames f2).Nodup) :
    mergeKey selfId bases req none (l2, f2) k = .ok (l2, f2) := by
  rcases mergeKey_ok_cases _ _ _ _ _ _ _ h with
    ⟨l, c, rest, hlref, hdd, hst⟩ | ⟨c1, c2, rest, hlref, hdd, hst⟩ |
    ⟨c, hlref, hdd, hst⟩ | ⟨l, hlref, hdd, hflag, hst⟩
  · subst hst
    simp only [getRef_setRef_self] at hl hf
    unfold mergeKey
    simp only [hl, hf, hdd]
    rw [if_neg (fun hc => Option.noConfusion hc.2.2)]
    rw [derive_copy_absorb]
    rw [setRef_eq_of_getRef _ _ _ hlnd hl, setRef_eq_of_getRef _ _ _ hfnd hf]
  · subst hst
    simp only [getRef_setRef_self] at hl hf
    unfold mergeKey
    simp only [hl, hf, hdd]
    rw [if_neg (fun hc => Option.noConfusion hc.2.2)]
    rw [derive_copy_of_derive]
    rw [setRef_eq_of_getRef _ _ _ hlnd hl, setRef_eq_of_getRef _ _ _ hfnd hf]
  · subst hst
    simp only [getRef_setRef_self] at hf
    rw [hlref] at hl
    unfold mergeKey
    simp only [hl, hf, hdd]
    rw [setRef_eq_of_getRef _ _ _ hfnd hf]
  · subst hst
    rw [hlref] at hl
    unfold mergeKey
    simp only [hl, hdd]
    rw [if_neg (show ¬ (l.declared_inherited = true) by rw [hflag]; simp)]

theorem mergeFold_frame (selfId : Nat) (bases : List SObj) (req : Bool)
    (dctx : Option Bool) (keys : List Nat) (st st' : Coll × Coll) (k : Nat)
    (h : mergeFold selfId bases req dctx st keys = .ok st') (hk : k ∉ keys) :
    getRef st'.1 k = getRef st.1 k ∧ getRef st'.2 k = getRef st.2 k := by
  induction keys generalizing st with
  | nil =>
    rw [mergeFold] at h
    have := (Except.ok.injEq _ _).mp h
    rw [this]
    exact ⟨rfl, rfl⟩
  | cons k' ks ih =>
    rw [List.mem_cons, not_or] at hk
    cases hstep : mergeKey selfId bases req dctx st k' with
    | error e => simp [mergeFold, hstep] at h
    | ok st1 =>
      rw [mergeFold, hstep] at h
      have h1 := mergeKey_frame selfId bases req dctx st st1 k' k hstep hk.1
      have h2 := ih st1 h hk.2
      exact ⟨h2.1.trans h1.1, h2.2.trans h1.2⟩

theorem mergeFold_nodup (selfId : Nat) (bases : List SObj) (req : Bool)
    (dctx : Option Bool) (keys : List Nat) (st st' : Coll × Coll)
    (h : mergeFold selfId bases req dctx st keys = .ok st')
    (hl : (refNames st.1).Nodup) (hf : (refNames st.2).Nodup) :
    (refNames st'.1).Nodup ∧ (refNames st'.2).Nodup := by
  induction keys generalizing st with
  | nil =>
    rw [mergeFold] at h
    have := (Except.ok.injEq _ _).mp h
    rw [← this]
    exact ⟨hl, hf⟩
  | cons k' ks ih =>
    cases hstep : mergeKey selfId bases req dctx st k' with
    | error e => simp [mergeFold, hstep] at h
    | ok st1 =>
      rw [mergeFold, hstep] at h
      have h1 := mergeKey_nodup selfId bases req dctx st st1 k' hstep hl hf
      exact ih st1 h h1.1 h1.2

theorem mergeFold_fullsNames (selfId : Nat) (bases : List SObj) (req : Bool)
    (dctx : Option Bool) (keys : List Nat) (st st' : Coll × Coll)
    (h : mergeFold selfId bases req dctx st keys = .ok st')
    (hkeys : ∀ k ∈ keys, k ∈ refNames st.2) :
    refNames st'.2 = refNames st.2 := by
  induction keys generalizing st with
  | nil =>
    rw [mergeFold] at h
    have := (Except.ok.injEq _ _).mp h
    rw [this]
  | cons k' ks ih =>
    cases hstep : mergeKey selfId bases req dctx st k' with
    | error e => simp [mergeFold, hstep] at h
    | ok st1 =>
      rw [mergeFold, hstep] at h
      have h1 := mergeKey_fullsNames selfId bases req dctx st st1 k' hstep
        (hkeys k' (List.mem_cons_self _ _))
      have h2 := ih st1 h (fun k hk => h1 ▸ hkeys k (List.mem_cons_of_mem _ hk))
      rw [h2, h1]

theorem mergeFold_idem (selfId : Nat) (bases : List SObj) (req : Bool)
    (keys : List Nat) (st st' : Coll × Coll)
    (hnd : keys.Nodup)
    (hl : (refNames st.1).Nodup) (hf : (refNames st.2).Nodup)
    (h : mergeFold selfId bases req none st keys = .ok st') :
    mergeFold selfId bases req none st' keys = .ok st' := by
  induction keys generalizing st with
  | nil =>
    rw [mergeFold]
  | cons k ks ih =>
    rw [List.nodup_cons] at hnd
    cases hstep : mergeKey selfId bases req none st k with
    | error e => simp [mergeFold, hstep] at h
    | ok st1 =>
      rw [mergeFold, hstep] at h
      have hnd1 := mergeKey_nodup selfId bases req none st st1 k hstep hl hf
      have hframe := mergeFold_frame selfId bases req none ks st1 st' k h hnd.1
      have hnd' := mergeFold_nodup selfId bases req none ks st1 st' h hnd1.1 hnd1.2
      have hstep2 : mergeKey selfId bases req none (st'.1, st'.2) k =
          .ok (st'.1, st'.2) :=
        mergeKey_idem selfId bases req st st1 k hstep st'.1 st'.2
          hframe.1 hframe.2 hnd'.1 hnd'.2
      have hih := ih st1 hnd.2 hnd1.1 hnd1.2 h
      rw [mergeFold]
      have hst'eta : (st'.1, st'.2) = st' := rfl
      rw [hst'eta] at hstep2
      rw [hstep2]
      exact hih

/-- C7: `finalize` is idempotent — if a (non-declarative, no
delta-recording) finalize run over the keys of the full collection
succeeds, running it again on the result with the same bases and
unchanged local declarations succeeds and returns exactly the same
object: the full and local collections are structurally identical. -/
theorem finalizeObj_idem (self : SObj) (bases : List SObj) (req : Bool)
    (self₁ : SObj)
    (hndl : (refNames self.locals).Nodup)
    (hndf : (refNames self.fulls).Nodup)
    (h : finalizeObj self bases req none = .ok self₁) :
    finalizeObj self₁ bases req none = .ok self₁ := by
  unfold finalizeObj mergeClassrefDict at h ⊢
  cases hfold : mergeFold self.oid bases req none (self.locals, self.fulls)
      (refNames self.fulls) with
  | error e => rw [hfold] at h; exact absurd h (by simp)
  | ok st =>
    rw [hfold] at h
    have hself₁ : { self with locals := st.1, fulls := st.2 } = self₁ :=
      (Except.ok.injEq _ _).mp h
    have hnames : refNames st.2 = refNames self.fulls :=
      mergeFold_fullsNames self.oid bases req none (refNames self.fulls)
        (self.locals, self.fulls) st hfold (fun k hk => hk)
    have hidem := mergeFold_idem self.oid bases req (refNames self.fulls)
      (self.locals, self.fulls) st hndf hndl hndf hfold
    rw [← hself₁]
    simp only []
    rw [hnames]
    have hsteta : ((st.1, st.2) : Coll × Coll) = st := rfl
    rw [hsteta, hidem]

/-- Witness for C7 at a concrete object: `selfSeven` purely inherits key
5 from `baseSeven`; the first finalize sets the full entry to the
inherited child, and the second finalize returns the same object. -/
theorem finalizeObj_idem_witness :
    finalizeObj ⟨0, [1], [1], [], [(5, cB)]⟩ [baseSeven] false none =
      .ok ⟨0, [1], [1], [], [(5, cB)]⟩ :=
  finalizeObj_idem selfSeven [baseSeven] false ⟨0, [1], [1], [], [(5, cB)]⟩
    (by decide) (by decide) (by decide)

theorem fst_mem_refNames (c : Coll) (p : Nat × Child) (hp : p ∈ c) :
    p.1 ∈ refNames c := by
  induction c with
  | nil => simp at hp
  | cons q t ih =>
    rw [List.mem_cons] at hp
    rcases hp with h1 | h1
    · rw [refNames, h1]
      exact List.mem_cons_self _ _
    · exact List.mem_cons_of_mem _ (ih h1)

theorem alterCmd?_none (oldc : Coll) (p : Nat × Child)
    (hgo : getRef oldc p.1 = none) : alterCmd? oldc p = none := by
  rw [alterCmd?, hgo]

theorem alterCmd?_same (oldc : Coll) (p : Nat × Child) {oc : Child}
    (hgo : getRef oldc p.1 = some oc) (heq : oc = p.2) :
    alterCmd? oldc p = none := by
  rw [alterCmd?, hgo]
  show (if oc = p.2 then none else some (ChildCmd.alterRef p.1 p.2)) = none
  rw [if_pos heq]

theorem alterCmd?_diff (oldc : Coll) (p : Nat × Child) {oc : Child}
    (hgo : getRef oldc p.1 = some oc) (heq : ¬ (oc = p.2)) :
    alterCmd? oldc p = some (.alterRef p.1 p.2) := by
  rw [alterCmd?, hgo]
  show (if oc = p.2 then none else some (ChildCmd.alterRef p.1 p.2)) =
    some (ChildCmd.alterRef p.1 p.2)
  rw [if_neg heq]

theorem mem_altersOf_name (oldc newc : Coll) (c : ChildCmd)
    (hc : c ∈ altersOf oldc newc) : cmdName c ∈ refNames newc := by
  obtain ⟨p, hp, hfp⟩ := List.mem_filterMap.mp hc
  cases hgo : getRef oldc p.1 with
  | none =>
    rw [alterCmd?_none oldc p hgo] at hfp
    exact absurd hfp (by simp)
  | some oc =>
    by_cases heq : oc = p.2
    · rw [alterCmd?_same oldc p hgo heq] at hfp
      exact absurd hfp (by simp)
    · rw [alterCmd?_diff oldc p hgo heq] at hfp
      have hcc := Option.some.inj hfp
      rw [← hcc, cmdName]
      exact fst_mem_refNames _ _ hp

theorem createCmd?_skip (oldc : Coll) (p : Nat × Child)
    (hh : hasRef oldc p.1 = true) : createCmd? oldc p = none := by
  rw [createCmd?, if_pos hh]

theorem createCmd?_take (oldc : Coll) (p : Nat × Child)
    (hh : ¬ (hasRef oldc p.1 = true)) :
    createCmd? oldc p = some (.createRef p.1 p.2) := by
  rw [createCmd?, if_neg hh]

theorem deleteCmd?_skip (newc : Coll) (p : Nat × Child)
    (hh : hasRef newc p.1 = true) : deleteCmd? newc p = none := by
  rw [deleteCmd?, if_pos hh]

theorem deleteCmd?_take (newc : Coll) (p : Nat × Child)
    (hh : ¬ (hasRef newc p.1 = true)) :
    deleteCmd? newc p = some (.deleteRef p.1) := by
  rw [deleteCmd?, if_neg hh]

theorem mem_createsOf_name (oldc newc : Coll) (c : ChildCmd)
    (hc : c ∈ createsOf oldc newc) : cmdName c ∈ refNames newc := by
  obtain ⟨p, hp, hfp⟩ := List.mem_filterMap.mp hc
  by_cases hh : hasRef oldc p.1 = true
  · rw [createCmd?_skip oldc p hh] at hfp
    exact absurd hfp (by simp)
  · rw [createCmd?_take oldc p hh] at hfp
    have hcc := Option.some.inj hfp
    rw [← hcc, cmdName]
    exact fst_mem_refNames _ _ hp

theorem mem_deletesOf_name (oldc newc : Coll) (c : ChildCmd)
    (hc : c ∈ deletesOf oldc newc) : cmdName c ∈ refNames oldc := by
  obtain ⟨p, hp, hfp⟩ := List.mem_filterMap.mp hc
  by_cases hh : hasRef newc p.1 = true
  · rw [deleteCmd?_skip newc p hh] at hfp
    exact absurd hfp (by simp)
  · rw [deleteCmd?_take newc p hh] at hfp
    have hcc := Option.some.inj hfp
    rw [← hcc, cmdName]
    exact fst_mem_refNames _ _ hp

theorem applyCmdColl_get_ne (coll : Coll) (c : ChildCmd) (n : Nat)
    (h : ¬ (cmdName c = n)) :
    getRef (applyCmdColl coll c) n = getRef coll n := by
  cases c with
  | createRef m ch => exact getRef_setRef_ne _ _ (fun hh => h hh.symm)
  | alterRef m ch => exact getRef_setRef_ne _ _ (fun hh => h hh.symm)
  | deleteRef m => exact getRef_delRef_ne _ (fun hh => h hh.symm)

theorem foldl_apply_preserve (cs : List ChildCmd) (coll : Coll) (n : Nat)
    (h : ∀ c ∈ cs, ¬ (cmdName c = n)) :
    getRef (cs.foldl applyCmdColl coll) n = getRef coll n := by
  induction cs generalizing coll with
  | nil => rfl
  | cons c rest ih =>
    rw [List.foldl_cons, ih _ (fun d hd => h d (List.mem_cons_of_mem _ hd)),
      applyCmdColl_get_ne _ _ _ (h c (List.mem_cons_self _ _))]

theorem altMatch_congr (a b : Option Child) {x y : Option Child} (h : x = y) :
    (match a, b with
      | some c, some oc => if oc = c then x else some c
      | _, _ => x) =
    (match a, b with
      | some c, some oc => if oc = c then y else some c
      | _, _ => y) := by
  cases a with
  | none => exact h
  | some c =>
    cases b with
    | none => exact h
    | some oc =>
      show (if oc = c then x else some c) = (if oc = c then y else some c)
      by_cases heq : oc = c
      · rw [if_pos heq, if_pos heq, h]
      · rw [if_neg heq, if_neg heq]

theorem altersOf_apply (coll oldc newc : Coll) (n : Nat)
    (hnd : (refNames newc).Nodup) :
    getRef ((altersOf oldc newc).foldl applyCmdColl coll) n =
      match getRef newc n, getRef oldc n with
      | some c, some oc => if oc = c then getRef coll n else some c
      | _, _ => getRef coll n := by
  induction newc generalizing coll with
  | nil =>
    simp [altersOf, getRef]
  | cons p t ih =>
    rw [refNames, List.nodup_cons] at hnd
    have hpreserve : p.1 = n → ∀ coll' : Coll,
        getRef ((altersOf oldc t).foldl applyCmdColl coll') n = getRef coll' n := by
      intro hpn coll'
      refine foldl_apply_preserve _ _ _ ?_
      intro c hc hcn
      have hmem := mem_altersOf_name oldc t c hc
      rw [hcn, ← hpn] at hmem
      exact hnd.1 hmem
    cases hgo : getRef oldc p.1 with
    | none =>
      have hsk : altersOf oldc (p :: t) = altersOf oldc t := by
        rw [altersOf, altersOf, List.filterMap_cons, alterCmd?_none oldc p hgo]
      rw [hsk]
      by_cases hpn : p.1 = n
      · have hgon : getRef oldc n = none := by rw [← hpn]; exact hgo
        have hR : (match getRef (p :: t) n, getRef oldc n with
            | some c, some oc => if oc = c then getRef coll n else some c
            | _, _ => getRef coll n) = getRef coll n := by
          rw [hgon]
          cases getRef (p :: t) n <;> rfl
        rw [hpreserve hpn coll, hR]
      · have hgtc : getRef (p :: t) n = getRef t n := by rw [getRef, if_neg hpn]
        rw [ih coll hnd.2, hgtc]
    | some oc =>
      by_cases heq : oc = p.2
      · have hsk : altersOf oldc (p :: t) = altersOf oldc t := by
          rw [altersOf, altersOf, List.filterMap_cons, alterCmd?_same oldc p hgo heq]
        rw [hsk]
        by_cases hpn : p.1 = n
        · have hgon : getRef oldc n = some oc := by rw [← hpn]; exact hgo
          have hgetc : getRef (p :: t) n = some p.2 := by rw [getRef, if_pos hpn]
          have hR : (match getRef (p :: t) n, getRef oldc n with
              | some c, some oc => if oc = c then getRef coll n else some c
              | _, _ => getRef coll n) = getRef coll n := by
            rw [hgon, hgetc]
            show (if oc = p.2 then getRef coll n else some p.2) = getRef coll n
            rw [if_pos heq]
          rw [hpreserve hpn coll, hR]
        · have hgtc : getRef (p :: t) n = getRef t n := by rw [getRef, if_neg hpn]
          rw [ih coll hnd.2, hgtc]
      · have hsk : altersOf oldc (p :: t) =
            ChildCmd.alterRef p.1 p.2 :: altersOf oldc t := by
          rw [altersOf, altersOf, List.filterMap_cons, alterCmd?_diff oldc p hgo heq]
        rw [hsk, List.foldl_cons]
        by_cases hpn : p.1 = n
        · have hgon : getRef oldc n = some oc := by rw [← hpn]; exact hgo
          have hgetc : getRef (p :: t) n = some p.2 := by rw [getRef, if_pos hpn]
          have hL : getRef (applyCmdColl coll (ChildCmd.alterRef p.1 p.2)) n =
              some p.2 := by
            show getRef (setRef coll p.1 p.2) n = some p.2
            rw [hpn, getRef_setRef_self]
          have hR : (match getRef (p :: t) n, getRef oldc n with
              | some c, some oc => if oc = c then getRef coll n else some c
              | _, _ => getRef coll n) = some p.2 := by
            rw [hgon, hgetc]
            show (if oc = p.2 then getRef coll n else some p.2) = some p.2
            rw [if_neg heq]
          rw [hpreserve hpn _, hL, hR]
        · have hgtc : getRef (p :: t) n = getRef t n := by rw [getRef, if_neg hpn]
          have hstep : getRef (applyCmdColl coll (ChildCmd.alterRef p.1 p.2)) n =
              getRef coll n :=
            applyCmdColl_get_ne _ _ _ (fun hh => hpn hh)
          rw [ih _ hnd.2, hgtc]
          exact altMatch_congr _ _ hstep

theorem hasRef_of_getRef_some {c : Coll} {n : Nat} {x : Child}
    (h : getRef c n = some x) : hasRef c n = true := by
  rw [hasRef, h]
  rfl

theorem hasRef_of_getRef_none {c : Coll} {n : Nat}
    (h : getRef c n = none) : hasRef c n = false := by
  rw [hasRef, h]
  rfl

theorem createsOf_apply (coll oldc newc : Coll) (n : Nat)
    (hnd : (refNames newc).Nodup) :
    getRef ((createsOf oldc newc).foldl applyCmdColl coll) n =
      match getRef newc n with
      | some c => if hasRef oldc n = true then getRef coll n else some c
      | none => getRef coll n := by
  induction newc generalizing coll with
  | nil => simp [createsOf, getRef]
  | cons p t ih =>
    rw [refNames, List.nodup_cons] at hnd
    have hpreserve : p.1 = n → ∀ coll' : Coll,
        getRef ((createsOf oldc t).foldl applyCmdColl coll') n = getRef coll' n := by
      intro hpn coll'
      refine foldl_apply_preserve _ _ _ ?_
      intro c hc hcn
      have hmem := mem_createsOf_name oldc t c hc
      rw [hcn, ← hpn] at hmem
      exact hnd.1 hmem
    by_cases hh : hasRef oldc p.1 = true
    · have hsk : createsOf oldc (p :: t) = createsOf oldc t := by
        rw [createsOf, createsOf, List.filterMap_cons, createCmd?_skip oldc p hh]
      rw [hsk]
      by_cases hpn : p.1 = n
      · have hhn : hasRef oldc n = true := by rw [← hpn]; exact hh
        have hgetc : getRef (p :: t) n = some p.2 := by rw [getRef, if_pos hpn]
        have hR : (match getRef (p :: t) n with
            | some c => if hasRef oldc n = true then getRef coll n else some c
            | none => getRef coll n) = getRef coll n := by
          rw [hgetc]
          show (if hasRef oldc n = true then getRef coll n else some p.2) =
            getRef coll n
          rw [if_pos hhn]
        rw [hpreserve hpn coll, hR]
      · have hgtc : getRef (p :: t) n = getRef t n := by rw [getRef, if_neg hpn]
        rw [ih coll hnd.2, hgtc]
    · have hsk : createsOf oldc (p :: t) =
          ChildCmd.createRef p.1 p.2 :: createsOf oldc t := by
        rw [createsOf, createsOf, List.filterMap_cons, createCmd?_take oldc p hh]
      rw [hsk, List.foldl_cons]
      by_cases hpn : p.1 = n
      · have hhn : ¬ (hasRef oldc n = true) := by rw [← hpn]; exact hh
        have hgetc : getRef (p :: t) n = some p.2 := by rw [getRef, if_pos hpn]
        have hL : getRef (applyCmdColl coll (ChildCmd.createRef p.1 p.2)) n =
            some p.2 := by
          show getRef (setRef coll p.1 p.2) n = some p.2
          rw [hpn, getRef_setRef_self]
        have hR : (match getRef (p :: t) n with
            | some c => if hasRef oldc n = true then getRef coll n else some c
            | none => getRef coll n) = some p.2 := by
          rw [hgetc]
          show (if hasRef oldc n = true then getRef coll n else some p.2) =
            some p.2
          rw [if_neg hhn]
        rw [hpreserve hpn _, hL, hR]
      · have hgtc : getRef (p :: t) n = getRef t n := by rw [getRef, if_neg hpn]
        have hstep : getRef (applyCmdColl coll (ChildCmd.createRef p.1 p.2)) n =
            getRef coll n :=
          applyCmdColl_get_ne _ _ _ (fun hh2 => hpn hh2)
        rw [ih _ hnd.2, hgtc]
        cases hgn : getRef t n with
        | none => exact hstep
        | some cc =>
          show (if hasRef oldc n = true
              then getRef (applyCmdColl coll (ChildCmd.createRef p.1 p.2)) n
              else some cc) =
            (if hasRef oldc n = true then getRef coll n else some cc)
          by_cases hho : hasRef oldc n = true
          · rw [if_pos hho, if_pos hho]
            exact hstep
          · rw [if_neg hho, if_neg hho]

theorem deletesOf_apply (coll oldc newc : Coll) (n : Nat)
    (hnd : (refNames oldc).Nodup) :
    getRef ((deletesOf oldc newc).foldl applyCmdColl coll) n =
      if hasRef oldc n = true ∧ hasRef newc n = false then none
      else getRef coll n := by
  induction oldc generalizing coll with
  | nil => simp [deletesOf, hasRef, getRef]
  | cons p t ih =>
    rw [refNames, List.nodup_cons] at hnd
    have hpreserve : p.1 = n → ∀ coll' : Coll,
        getRef ((deletesOf t newc).foldl applyCmdColl coll') n = getRef coll' n := by
      intro hpn coll'
      refine foldl_apply_preserve _ _ _ ?_
      intro c hc hcn
      have hmem := mem_deletesOf_name t newc c hc
      rw [hcn, ← hpn] at hmem
      exact hnd.1 hmem
    by_cases hh : hasRef newc p.1 = true
    · have hsk : deletesOf (p :: t) newc = deletesOf t newc := by
        rw [deletesOf, deletesOf, List.filterMap_cons, deleteCmd?_skip newc p hh]
      rw [hsk]
      by_cases hpn : p.1 = n
      · have hhn : hasRef newc n = true := by rw [← hpn]; exact hh
        have hcond : ¬ (hasRef (p :: t) n = true ∧ hasRef newc n = false) := by
          intro hc
          rw [hhn] at hc
          exact absurd hc.2 (by simp)
        rw [hpreserve hpn coll, if_neg hcond]
      · have hht : hasRef (p :: t) n = hasRef t n := by
          simp [hasRef, getRef, hpn]
        rw [ih coll hnd.2, hht]
    · have hsk : deletesOf (p :: t) newc =
          ChildCmd.deleteRef p.1 :: deletesOf t newc := by
        rw [deletesOf, deletesOf, List.filterMap_cons, deleteCmd?_take newc p hh]
      rw [hsk, List.foldl_cons]
      by_cases hpn : p.1 = n
      · have hhn : hasRef newc n = false := by
          rw [← hpn]
          cases hcase : hasRef newc p.1
          · rfl
          · exact absurd hcase hh
        have hL : getRef (applyCmdColl coll (ChildCmd.deleteRef p.1)) n = none := by
          show getRef (delRef coll p.1) n = none
          rw [hpn, getRef_delRef_self]
        have hcond : hasRef (p :: t) n = true ∧ hasRef newc n = false := by
          refine ⟨?_, hhn⟩
          rw [hasRef, getRef, if_pos hpn]
          rfl
        rw [hpreserve hpn _, hL, if_pos hcond]
      · have hht : hasRef (p :: t) n = hasRef t n := by
          simp [hasRef, getRef, hpn]
        have hstep : getRef (applyCmdColl coll (ChildCmd.deleteRef p.1)) n =
            getRef coll n :=
          applyCmdColl_get_ne _ _ _ (fun hh2 => hpn hh2)
        rw [ih _ hnd.2, hht]
        by_cases hcond : hasRef t n = true ∧ hasRef newc n = false
        · rw [if_pos hcond, if_pos hcond]
        · rw [if_neg hcond, if_neg hcond]
          exact hstep

theorem deltaSets_apply (coll oldc newc : Coll) (n : Nat)
    (hndo : (refNames oldc).Nodup) (hndn : (refNames newc).Nodup)
    (hcoll : ∀ m, getRef coll m = getRef oldc m) :
    getRef ((deltaSets oldc newc).foldl applyCmdColl coll) n =
      getRef newc n := by
  rw [deltaSets, List.foldl_append, List.foldl_append]
  rw [deletesOf_apply _ _ _ _ hndo]
  by_cases hdel : hasRef oldc n = true ∧ hasRef newc n = false
  · rw [if_pos hdel, (hasRef_eq_false_iff newc n).mp hdel.2]
  · rw [if_neg hdel]
    rw [createsOf_apply _ _ _ _ hndn]
    cases hgn : getRef newc n with
    | some c =>
      by_cases hho : hasRef oldc n = true
      · obtain ⟨oc, hoc⟩ : ∃ oc, getRef oldc n = some oc := by
          cases hgo2 : getRef oldc n with
          | none =>
            rw [hasRef, hgo2] at hho
            exact absurd hho (by simp)
          | some oc => exact ⟨oc, rfl⟩
        show (if hasRef oldc n = true
            then getRef ((altersOf oldc newc).foldl applyCmdColl coll) n
            else some c) = some c
        rw [if_pos hho, altersOf_apply _ _ _ _ hndn, hgn, hoc]
        show (if oc = c then getRef coll n else some c) = some c
        by_cases heq : oc = c
        · rw [if_pos heq, hcoll n, hoc, heq]
        · rw [if_neg heq]
      · show (if hasRef oldc n = true
            then getRef ((altersOf oldc newc).foldl applyCmdColl coll) n
            else some c) = some c
        rw [if_neg hho]
    | none =>
      show getRef ((altersOf oldc newc).foldl applyCmdColl coll) n = none
      rw [altersOf_apply _ _ _ _ hndn, hgn]
      have hnewf : hasRef newc n = false := hasRef_of_getRef_none hgn
      have holdf : hasRef oldc n = false := by
        cases hcase : hasRef oldc n
        · rfl
        · exact absurd ⟨hcase, hnewf⟩ hdel
      have holdn : getRef oldc n = none := (hasRef_eq_false_iff oldc n).mp holdf
      rw [holdn]
      show getRef coll n = none
      rw [hcoll n, holdn]

/-- Counterexample to C8: `tOld` carries an inherited entry (key 5) in
its full collection that is absent from its local collection, and the
corresponding version `tNew` has lost it; `delta` diffs only the local
collections, so applying `delta(tOld, tNew)` to `tOld` leaves the stale
key 5 in the full collection, whereas `tNew`'s full collection lacks it:
the round trip does not reproduce the full collections exactly. -/
theorem refDelta_roundtrip_cex :
    hasRef (applyDelta tOld (refDelta (some tOld) tNew)).fulls 5 = true ∧
    hasRef tNew.fulls 5 = false := by
  decide

theorem deltaSets_apply_gen (coll oldc newc target : Coll) (n : Nat)
    (hndo : (refNames oldc).Nodup) (hndn : (refNames newc).Nodup)
    (hagree_old : hasRef oldc n = true → getRef coll n = getRef oldc n)
    (hagree_new : hasRef newc n = true → getRef target n = getRef newc n)
    (hinh : (if hasRef oldc n = true then none else getRef coll n) =
            (if hasRef newc n = true then none else getRef target n)) :
    getRef ((deltaSets oldc newc).foldl applyCmdColl coll) n =
      getRef target n := by
  rw [deltaSets, List.foldl_append, List.foldl_append]
  rw [deletesOf_apply _ _ _ _ hndo]
  by_cases hdel : hasRef oldc n = true ∧ hasRef newc n = false
  · rw [if_pos hdel]
    rw [if_pos hdel.1, if_neg (show ¬ hasRef newc n = true by
      rw [hdel.2]; simp)] at hinh
    exact hinh
  · rw [if_neg hdel, createsOf_apply _ _ _ _ hndn]
    cases hgn : getRef newc n with
    | some c =>
      have hNL : hasRef newc n = true := hasRef_of_getRef_some hgn
      have htarget : getRef target n = some c := by
        rw [hagree_new hNL, hgn]
      by_cases hho : hasRef oldc n = true
      · obtain ⟨oc, hoc⟩ : ∃ oc, getRef oldc n = some oc := by
          cases hgo2 : getRef oldc n with
          | none =>
            rw [hasRef, hgo2] at hho
            exact absurd hho (by simp)
          | some oc => exact ⟨oc, rfl⟩
        show (if hasRef oldc n = true
            then getRef ((altersOf oldc newc).foldl applyCmdColl coll) n
            else some c) = getRef target n
        rw [if_pos hho, altersOf_apply _ _ _ _ hndn, hgn, hoc]
        show (if oc = c then getRef coll n else some c) = getRef target n
        by_cases heq : oc = c
        · rw [if_pos heq, hagree_old hho, hoc, heq, htarget]
        · rw [if_neg heq, htarget]
      · show (if hasRef oldc n = true
            then getRef ((altersOf oldc newc).foldl applyCmdColl coll) n
            else some c) = getRef target n
        rw [if_neg hho, htarget]
    | none =>
      have hNL : hasRef newc n = false := hasRef_of_getRef_none hgn
      show getRef ((altersOf oldc newc).foldl applyCmdColl coll) n =
        getRef target n
      rw [altersOf_apply _ _ _ _ hndn, hgn]
      have hOL : hasRef oldc n = false := by
        cases hcase : hasRef oldc n
        · rfl
        · exact absurd ⟨hcase, hNL⟩ hdel
      have holdn : getRef oldc n = none := (hasRef_eq_false_iff oldc n).mp hOL
      rw [holdn]
      show getRef coll n = getRef target n
      rw [if_neg (show ¬ hasRef oldc n = true by rw [hOL]; simp),
        if_neg (show ¬ hasRef newc n = true by rw [hNL]; simp)] at hinh
      exact hinh

/-- C8 (amended): applying `delta(old, new)` to `old` reproduces `new`'s
local collection exactly (as a name-to-child mapping), unconditionally;
and for well-formed versions — each version's full collection agreeing
with its local collection at locally-declared names, as `add_classref`
and `finalize` maintain — the full collection is reproduced exactly
whenever the two versions carry the same non-local (inherited)
entries. -/
theorem refDelta_roundtrip (old new : TObj)
    (hndo : (refNames old.locals).Nodup)
    (hndn : (refNames new.locals).Nodup) :
    (∀ n, getRef (applyDelta old (refDelta (some old) new)).locals n =
      getRef new.locals n) ∧
    ((∀ n, hasRef old.locals n = true →
        getRef old.fulls n = getRef old.locals n) →
      (∀ n, hasRef new.locals n = true →
        getRef new.fulls n = getRef new.locals n) →
      (∀ n, (if hasRef old.locals n = true then none
          else getRef old.fulls n) =
        (if hasRef new.locals n = true then none
          else getRef new.fulls n)) →
      ∀ n, getRef (applyDelta old (refDelta (some old) new)).fulls n =
        getRef new.fulls n) := by
  constructor
  · intro n
    show getRef ((deltaSets old.locals new.locals).foldl applyCmdColl
      old.locals) n = getRef new.locals n
    exact deltaSets_apply _ _ _ n hndo hndn (fun m => rfl)
  · intro hago hagn hinh n
    show getRef ((deltaSets old.locals new.locals).foldl applyCmdColl
      old.fulls) n = getRef new.fulls n
    exact deltaSets_apply_gen old.fulls old.locals new.locals new.fulls n
      hndo hndn (hago n) (hagn n) (hinh n)

/-- Witness for the amended C8: `tOld3` has local child 5 and an
inherited entry 9; `tNew3` alters child 5, creates child 6, and carries
the same inherited entry 9; the round trip reproduces the new local
collection at key 5 and the new full collection at the inherited key
9. -/
theorem refDelta_roundtrip_witness :
    getRef (applyDelta tOld3 (refDelta (some tOld3) tNew3)).locals 5 =
      getRef tNew3.locals 5 ∧
    getRef (applyDelta tOld3 (refDelta (some tOld3) tNew3)).fulls 9 =
      getRef tNew3.fulls 9 :=
  ⟨(refDelta_roundtrip tOld3 tNew3 (by decide) (by decide)).1 5,
   (refDelta_roundtrip tOld3 tNew3 (by decide) (by decide)).2
    (by
      intro n h
      by_cases h5 : (5 : Nat) = n
      · rw [← h5]
        decide
      · rw [tOld3] at h
        simp [hasRef, getRef, h5] at h)
    (by
      intro n h
      by_cases h5 : (5 : Nat) = n
      · rw [← h5]
        decide
      · by_cases h6 : (6 : Nat) = n
        · rw [← h6]
          decide
        · rw [tNew3] at h
          simp [hasRef, getRef, h5, h6] at h)
    (by
      intro n
      by_cases h5 : (5 : Nat) = n
      · rw [← h5]
        decide
      · by_cases h6 : (6 : Nat) = n
        · rw [← h6]
          decide
        · by_cases h9 : (9 : Nat) = n
          · rw [← h9]
            decide
          · rw [tOld3, tNew3]
            simp [hasRef, getRef, h5, h6, h9])
    9⟩

theorem createsOf_nil_left (c : Coll) :
    createsOf [] c = c.map (fun p => ChildCmd.createRef p.1 p.2) := by
  induction c with
  | nil => rfl
  | cons p t ih =>
    rw [createsOf, List.filterMap_cons,
      createCmd?_take [] p (by simp [hasRef, getRef]), List.map_cons]
    rw [createsOf] at ih
    rw [ih]

theorem deltaSets_nil_left (c : Coll) :
    deltaSets [] c = c.map (fun p => ChildCmd.createRef p.1 p.2) := by
  have h1 : altersOf [] c = [] := by
    rw [altersOf]
    refine List.filterMap_eq_nil_iff.mpr ?_
    intro p _
    exact alterCmd?_none [] p rfl
  have h2 : deletesOf [] c = [] := rfl
  rw [deltaSets, h1, h2, createsOf_nil_left, List.nil_append, List.append_nil]

/-- C9: with no prior version, `delta` emits a bare `Create` carrying
only the new object's own field changes and no child subcommands; the
children diff (a `Create` with full contents per local child) is placed
in a separate sibling `Alter` grouped alongside the `Create`, and the
`Alter` (with the group) is omitted entirely when it has no
subcommands. -/
theorem refDelta_create_shape (new : TObj) :
    (new.locals = [] →
      refDelta none new = .createObj new.tname new.ofields []) ∧
    (new.locals ≠ [] →
      refDelta none new =
        .cmdGroup (.createObj new.tname new.ofields [])
          (.alterObj new.tname []
            (new.locals.map (fun p => ChildCmd.createRef p.1 p.2)))) := by
  constructor
  · intro hnil
    have hempty : deltaSets [] new.locals = [] := by
      rw [deltaSets_nil_left, hnil]
      rfl
    show (if deltaSets [] new.locals = []
        then ObjCmd.createObj new.tname new.ofields []
        else ObjCmd.cmdGroup (ObjCmd.createObj new.tname new.ofields [])
          (ObjCmd.alterObj new.tname [] (deltaSets [] new.locals))) =
      ObjCmd.createObj new.tname new.ofields []
    rw [if_pos hempty]
  · intro hne
    have hnon : ¬ (deltaSets [] new.locals = []) := by
      rw [deltaSets_nil_left]
      intro hmap
      exact hne (List.map_eq_nil_iff.mp hmap)
    show (if deltaSets [] new.locals = []
        then ObjCmd.createObj new.tname new.ofields []
        else ObjCmd.cmdGroup (ObjCmd.createObj new.tname new.ofields [])
          (ObjCmd.alterObj new.tname [] (deltaSets [] new.locals))) =
      ObjCmd.cmdGroup (ObjCmd.createObj new.tname new.ofields [])
        (ObjCmd.alterObj new.tname []
          (new.locals.map (fun p => ChildCmd.createRef p.1 p.2)))
    rw [if_neg hnon, deltaSets_nil_left]

/-- Witness for C9 at a concrete object with two local children: the
delta is a group of the bare create and the sibling alter carrying one
`Create` subcommand per child. -/
theorem refDelta_create_shape_witness :
    refDelta none tNew2 =
      .cmdGroup (.createObj 0 [] [])
        (.alterObj 0 [] [ChildCmd.createRef 5 cL, ChildCmd.createRef 6 cB]) :=
  (refDelta_create_shape tNew2).2 (by decide)

end EdbRef
